/-
Verification development for the db-seed-ai schema extraction and ordering
engine and its model-output recovery parser.

Strings are embedded as `List Char` (the inputs are ASCII, so Go byte
offsets coincide with character offsets).  Functions whose Go originals use
non-structural recursion (substring replacement, the CREATE TABLE scanner,
the JSON decoder, the DFS visit) take an explicit fuel argument that is
always instantiated large enough; this keeps every definition executable by
kernel reduction.  Go's `regexp` calls are embedded as deterministic
scanners implementing the exact patterns used by the source (the patterns
involved never need backtracking beyond what the scanners encode).
-/
import Mathlib

namespace DbSeed

/-- Convert a Lean string literal to the `List Char` representation used
throughout this development. -/
def str (s : String) : List Char := s.data

/-- Go `unicode.IsSpace` restricted to the ASCII range (the only characters
our inputs contain): space, tab, newline, vertical tab, form feed and
carriage return. -/
def goIsSpace (c : Char) : Bool :=
  c = ' ' || c = '\t' || c = '\n' || c = '\x0b' || c = '\x0c' || c = '\r'

/-- The RE2 character class `\s`, i.e. `[\t\n\f\r ]` (no vertical tab). -/
def isReSpace (c : Char) : Bool :=
  c = ' ' || c = '\t' || c = '\n' || c = '\x0c' || c = '\r'

/-- The RE2 character class `\w`, i.e. `[0-9A-Za-z_]`. -/
def isWordChar (c : Char) : Bool :=
  ('a' ≤ c && c ≤ 'z') || ('A' ≤ c && c ≤ 'Z') || ('0' ≤ c && c ≤ '9') || c = '_'

/-- Left part of Go `strings.TrimSpace`. -/
def trimLeft (s : List Char) : List Char := s.dropWhile goIsSpace

/-- Right part of Go `strings.TrimSpace`. -/
def trimRight (s : List Char) : List Char := (s.reverse.dropWhile goIsSpace).reverse

/-- Go `strings.TrimSpace`. -/
def trimSpace (s : List Char) : List Char := trimRight (trimLeft s)

/-- Go `strings.HasPrefix`. -/
def startsWith : List Char → List Char → Bool
  | _, [] => true
  | [], _ :: _ => false
  | c :: cs, p :: ps => c = p && startsWith cs ps

/-- Go `strings.HasSuffix`. -/
def endsWith (s pat : List Char) : Bool := startsWith s.reverse pat.reverse

/-- Go `strings.Index` (first occurrence of `pat` in the list). -/
def indexOfSub (pat : List Char) : List Char → Option Nat
  | [] => if pat = [] then some 0 else none
  | c :: rest =>
    if startsWith (c :: rest) pat then some 0
    else (indexOfSub pat rest).map (· + 1)

/-- Go `strings.LastIndex` (last occurrence of `pat` in the list). -/
def lastIndexOfSub (pat : List Char) : List Char → Option Nat
  | [] => if pat = [] then some 0 else none
  | c :: rest =>
    match lastIndexOfSub pat rest with
    | some j => some (j + 1)
    | none => if startsWith (c :: rest) pat then some 0 else none

/-- Go `strings.Contains`. -/
def containsSub (s pat : List Char) : Bool := (indexOfSub pat s).isSome

/-- Fueled body of Go `strings.ReplaceAll` (left-to-right, non-overlapping). -/
def replaceAllGo : Nat → List Char → List Char → List Char → List Char
  | 0, _, _, s => s
  | _ + 1, _, _, [] => []
  | fuel + 1, pat, rep, c :: rest =>
    if !pat.isEmpty && startsWith (c :: rest) pat then
      rep ++ replaceAllGo fuel pat rep ((c :: rest).drop pat.length)
    else
      c :: replaceAllGo fuel pat rep rest

/-- Go `strings.ReplaceAll s pat rep` (with enough fuel for the whole list). -/
def replaceAll (pat rep s : List Char) : List Char :=
  replaceAllGo (s.length + 1) pat rep s

/-- The tokens produced by `bufio.Scanner` with `ScanLines` before carriage
return stripping: split on a newline, with no trailing empty token when the
input ends with a newline, and no token at all for empty input. -/
def splitLines : List Char → List (List Char)
  | [] => []
  | c :: rest =>
    if c = '\n' then [] :: splitLines rest
    else
      match splitLines rest with
      | [] => [[c]]
      | l :: ls => (c :: l) :: ls

/-- The carriage-return stripping that `bufio.ScanLines` applies to each
token. -/
def dropCR (l : List Char) : List Char :=
  if l.getLast? = some '\r' then l.dropLast else l

/-- Go `strings.Split` on a single-character separator. -/
def splitOnChar (sep : Char) : List Char → List (List Char)
  | [] => [[]]
  | c :: rest =>
    if c = sep then [] :: splitOnChar sep rest
    else
      match splitOnChar sep rest with
      | [] => [[c]]
      | l :: ls => (c :: l) :: ls

/-- Go `strings.ToUpper` (ASCII). -/
def upper (s : List Char) : List Char := s.map Char.toUpper

/-- Go `strings.ToLower` (ASCII). -/
def lower (s : List Char) : List Char := s.map Char.toLower

/-! ## Data model (internal/schema) -/

/-- ForeignKey describes a reference to another table
(`schema.ForeignKey`). -/
structure ForeignKey where
  refTable : List Char
  refColumn : List Char
deriving DecidableEq

/-- A table column with constraints (`schema.Column`). -/
structure Column where
  name : List Char
  type : List Char
  notNull : Bool
  unique : Bool
  primaryKey : Bool
  checkIn : List (List Char)
  foreignKey : Option ForeignKey
deriving DecidableEq

/-- A parsed database table (`schema.Table`). -/
structure Table where
  name : List Char
  columns : List Column
deriving DecidableEq

/-- Accumulator loop of `Table.DependsOn`: Go keeps a `seen` set and an
`out` slice whose contents always coincide, so the single list `out` plays
both roles. -/
def dependsOnAux : List (List Char) → List Column → List (List Char)
  | out, [] => out
  | out, c :: cs =>
    match c.foreignKey with
    | some fk =>
      if fk.refTable ∈ out then dependsOnAux out cs
      else dependsOnAux (out ++ [fk.refTable]) cs
    | none => dependsOnAux out cs

/-- `Table.DependsOn`: table names this table's foreign keys reference, in
first-seen order without repetition. -/
def Table.dependsOn (t : Table) : List (List Char) := dependsOnAux [] t.columns

/-- `Table.NonAutoColumns`: all columns that are not integer primary keys;
when that filter leaves nothing, the source falls back to the full column
list. -/
def Table.nonAutoColumns (t : Table) : List Column :=
  let out := t.columns.filter (fun c => !(c.primaryKey && c.type = str "integer"))
  if out = [] then t.columns else out

/-- The sequence of foreign-key target names of a list of columns, in
order, with repetitions. -/
def refsOfCols (cs : List Column) : List (List Char) :=
  cs.filterMap (fun c => c.foreignKey.map ForeignKey.refTable)

/-- The sequence of foreign-key target names of a table's columns, in
column order, with repetitions (used to specify `dependsOn`). -/
def refNames (t : Table) : List (List Char) := refsOfCols t.columns

/-- First-seen-order removal of duplicates (the specification-side
description of what `dependsOn` computes). -/
def dedupFirstSeen : List (List Char) → List (List Char)
  | [] => []
  | x :: xs => x :: dedupFirstSeen (xs.filter (fun y => y ≠ x))
termination_by l => l.length
decreasing_by
  simp only [List.length_cons]
  exact Nat.lt_succ_of_le (List.length_filter_le _ _)

/-! ## Topological sort (internal/schema, parse.go) -/

/-- The names of a list of tables, in declaration order. -/
def names (tables : List Table) : List (List Char) := tables.map Table.name

/-- The `byName` map of `topologicalSort`: Go builds it with
`byName[t.Name] = t` over the slice, so a later table overwrites an earlier
one with the same name; looking up in the reversed list reproduces that. -/
def lookupTable (tables : List Table) (n : List Char) : Option Table :=
  tables.reverse.find? (fun t => decide (t.name = n))

/-- State of the DFS in `topologicalSort`: the `visited` marker set and the
output `order`. -/
structure SortState where
  visited : List (List Char)
  order : List Table

/-- The recursive `visit` closure of `topologicalSort`, with fuel for the
recursion over dependencies.  The fuel is always instantiated above the
maximal possible nesting depth (one more than the number of tables), so the
zero-fuel branch is never taken. -/
def visit (tables : List Table) : Nat → List Char → SortState → SortState
  | 0, _, st => st
  | fuel + 1, n, st =>
    if n ∈ st.visited then st
    else
      let st1 : SortState := ⟨n :: st.visited, st.order⟩
      match lookupTable tables n with
      | none => st1
      | some t =>
        let st2 := t.dependsOn.foldl (fun s d => visit tables fuel d s) st1
        ⟨st2.visited, st2.order ++ [t]⟩

/-- `topologicalSort` with an explicit fuel bound for each top-level
visit. -/
def topologicalSortFuel (fuel : Nat) (tables : List Table) : List Table :=
  (tables.foldl (fun st t => visit tables fuel t.name st) ⟨[], []⟩).order

/-- `topologicalSort`: tables in insert order (dependencies first). -/
def topologicalSort (tables : List Table) : List Table :=
  topologicalSortFuel (tables.length + 1) tables

/-- Number of declared table names not yet visited; the DFS recursion
measure. -/
def unvisitedCount (tables : List Table) (st : SortState) : Nat :=
  ((names tables).filter (fun n => decide (n ∉ st.visited))).length

/-! ## SQL text parsing (internal/schema, parse.go)

The Go source drives this stage with a handful of fixed regular
expressions.  Each one is embedded as a deterministic scanner that consumes
the same strings the pattern matches; the patterns are such that greedy
maximal munch plus the one backtracking situation in `([^)]+)` after `\s*`
(handled in `parenCapture`) reproduces RE2's leftmost-first semantics
exactly. -/

/-- Match a literal word case-insensitively (`(?i)` on an alphabetic
pattern given in upper case), returning the rest. -/
def litCI : List Char → List Char → Option (List Char)
  | [], s => some s
  | _ :: _, [] => none
  | p :: ps, c :: cs => if c.toUpper = p then litCI ps cs else none

/-- `\s+` (RE2 space class), returning the rest. -/
def spaces1 : List Char → Option (List Char)
  | [] => none
  | c :: r => if isReSpace c then some (r.dropWhile isReSpace) else none

/-- `\s*` (RE2 space class). -/
def dropReSpaces (s : List Char) : List Char := s.dropWhile isReSpace

/-- A single required literal character. -/
def chomp (c : Char) : List Char → Option (List Char)
  | [] => none
  | x :: r => if x = c then some r else none

/-- `["']?`: consume one quote character if present. -/
def dropQuote : List Char → List Char
  | [] => []
  | c :: r => if c = '\'' || c = '"' then r else c :: r

/-- `(\w+)`: maximal nonempty run of word characters, returning the capture
and the rest. -/
def word1 (s : List Char) : Option (List Char × List Char) :=
  let w := s.takeWhile isWordChar
  if w = [] then none else some (w, s.drop w.length)

/-- The capture of `\s*([^)]+)\)` right after an opening parenthesis: when
the chunk before the closing parenthesis contains a non-space, the greedy
`\s*` eats the leading spaces; when it is all spaces, backtracking leaves
exactly its last character to `[^)]+`. -/
def parenCapture (r : List Char) : Option (List Char) :=
  let chunk := r.takeWhile (fun c => c ≠ ')')
  if (r.drop chunk.length).head? = some ')' && !chunk.isEmpty then
    some (chunk.drop (min (chunk.takeWhile isReSpace).length (chunk.length - 1)))
  else none

/-- Scanner for the table-declaration pattern
`(?i)CREATE\s+TABLE\s+(IF\s+NOT\s+EXISTS\s+)?["']?(\w+)["']?\s*\(`
anchored at the head of the list; returns the table name and the rest after
the opening parenthesis. -/
def matchCreateAt (s : List Char) : Option (List Char × List Char) := do
  let r1 ← litCI (str "CREATE") s
  let r2 ← spaces1 r1
  let r3 ← litCI (str "TABLE") r2
  let r4 ← spaces1 r3
  let r5 := (do
    let a1 ← litCI (str "IF") r4
    let a2 ← spaces1 a1
    let a3 ← litCI (str "NOT") a2
    let a4 ← spaces1 a3
    let a5 ← litCI (str "EXISTS") a4
    spaces1 a5).getD r4
  let (name, r6) ← word1 (dropQuote r5)
  let r7 := dropReSpaces (dropQuote r6)
  let r8 ← chomp '(' r7
  pure (name, r8)

/-- `FindAllStringSubmatchIndex` for the table-declaration pattern: scan
left to right, record the start position and the captured name of each
match, and resume scanning after the end of the match. -/
def findCreatesGo : Nat → List Char → Nat → List (Nat × List Char)
  | 0, _, _ => []
  | _ + 1, [], _ => []
  | fuel + 1, c :: rest, pos =>
    match matchCreateAt (c :: rest) with
    | some (name, restAfter) =>
      (pos, name) :: findCreatesGo fuel restAfter (pos + ((c :: rest).length - restAfter.length))
    | none => findCreatesGo fuel rest (pos + 1)

/-- Inner loop of `extractParenBlock` starting just after the opening
parenthesis at nesting depth one; an unbalanced body yields the remainder
of the text (the source's best-effort policy). -/
def parenBody : List Char → Nat → List Char
  | [], _ => []
  | c :: cs, depth =>
    if c = '(' then c :: parenBody cs (depth + 1)
    else if c = ')' then
      if depth = 1 then [] else c :: parenBody cs (depth - 1)
    else c :: parenBody cs depth

/-- `extractParenBlock`: the content of the first balanced parenthesis
block, or everything after the first `(` when unbalanced, or empty when
there is no `(`. -/
def extractParenBlock (s : List Char) : List Char :=
  match s.dropWhile (fun c => c ≠ '(') with
  | [] => []
  | _ :: rest => parenBody rest 1

/-- Loop of `splitTopLevel`: split on `sep` at parenthesis depth zero; the
Go depth counter is a machine integer that may go negative, hence `Int`.
A trailing empty piece is dropped, interior empty pieces are kept. -/
def splitTopLevelGo (sep : Char) : List Char → Int → List Char → List (List Char)
  | [], _, cur => if cur = [] then [] else [cur.reverse]
  | c :: cs, depth, cur =>
    if c = '(' then splitTopLevelGo sep cs (depth + 1) (c :: cur)
    else if c = ')' then splitTopLevelGo sep cs (depth - 1) (c :: cur)
    else if c = sep && depth = 0 then cur.reverse :: splitTopLevelGo sep cs depth []
    else splitTopLevelGo sep cs depth (c :: cur)

/-- `splitTopLevel`. -/
def splitTopLevel (s : List Char) (sep : Char) : List (List Char) :=
  splitTopLevelGo sep s 0 []

/-- `normalizeType`: map a raw type token to one of the five semantic
types, defaulting to text. -/
def normalizeType (t0 : List Char) : List Char :=
  let t := lower (trimSpace t0)
  if startsWith t (str "varchar") || startsWith t (str "char") || t = str "text" ||
      startsWith t (str "character") then str "text"
  else if startsWith t (str "int") || t = str "serial" || startsWith t (str "bigserial") ||
      startsWith t (str "smallint") then str "integer"
  else if startsWith t (str "decimal") || startsWith t (str "numeric") ||
      startsWith t (str "real") || startsWith t (str "double") || t = str "float" then
    str "decimal"
  else if containsSub t (str "timestamp") || containsSub t (str "date") ||
      t = str "datetime" then str "timestamp"
  else if t = str "bool" || startsWith t (str "boolean") then str "boolean"
  else str "text"

/-- Scanner for `(?i)CHECK\s*\(\s*\w+\s+IN\s*\(([^)]+)\)` anchored at the
head; returns the quoted-list capture. -/
def matchCheckAt (s : List Char) : Option (List Char) := do
  let r1 ← litCI (str "CHECK") s
  let r2 ← chomp '(' (dropReSpaces r1)
  let (_, r3) ← word1 (dropReSpaces r2)
  let r4 ← spaces1 r3
  let r5 ← litCI (str "IN") r4
  let r6 ← chomp '(' (dropReSpaces r5)
  let chunk := r6.takeWhile (fun c => c ≠ ')')
  if (r6.drop chunk.length).head? = some ')' && !chunk.isEmpty then
    pure chunk
  else none

/-- First match of the CHECK pattern anywhere in the clause
(`FindStringSubmatch`). -/
def findCheckIn : List Char → Option (List Char)
  | [] => none
  | c :: rest =>
    match matchCheckAt (c :: rest) with
    | some cap => some cap
    | none => findCheckIn rest

/-- Scanner for `(?i)REFERENCES\s+["']?(\w+)["']?\s*\(\s*["']?(\w+)["']?\s*\)`
anchored at the head. -/
def matchRefsAt (s : List Char) : Option ForeignKey := do
  let r1 ← litCI (str "REFERENCES") s
  let r2 ← spaces1 r1
  let (tbl, r3) ← word1 (dropQuote r2)
  let r4 ← chomp '(' (dropReSpaces (dropQuote r3))
  let (coln, r5) ← word1 (dropQuote (dropReSpaces r4))
  let _ ← chomp ')' (dropReSpaces (dropQuote r5))
  pure ⟨tbl, coln⟩

/-- First match of the REFERENCES pattern anywhere in the clause. -/
def findRefs : List Char → Option ForeignKey
  | [] => none
  | c :: rest =>
    match matchRefsAt (c :: rest) with
    | some fk => some fk
    | none => findRefs rest

/-- The anchored head of `colDefRe`:
`(?i)^["']?(\w+)["']?\s+(\w+)(\s*\([^)]*\))?`; returns the column name and
the raw type token with its optional parenthesized size appended (the Go
code trims the captured group before appending). -/
def matchColHead (s : List Char) : Option (List Char × List Char) := do
  let (name, r1) ← word1 (dropQuote s)
  let r2 ← spaces1 (dropQuote r1)
  let (ty, r3) ← word1 r2
  let tyFull :=
    match chomp '(' (dropReSpaces r3) with
    | some r4 =>
      let inner := r4.takeWhile (fun c => c ≠ ')')
      if (r4.drop inner.length).head? = some ')' then ty ++ '(' :: inner ++ [')']
      else ty
    | none => ty
  pure (name, tyFull)

/-- Fueled loop of `parseQuotedList`; each step consumes at least one
character, so fuel one above the length always suffices. -/
def parseQuotedListGo : Nat → List Char → List (List Char)
  | 0, _ => []
  | _ + 1, [] => []
  | fuel + 1, c :: rest =>
    if c = '\'' then
      let inner := rest.takeWhile (fun x => x ≠ '\'')
      match rest.drop inner.length with
      | _ :: after =>
        if inner = [] then parseQuotedListGo fuel after
        else inner :: parseQuotedListGo fuel after
      | [] => parseQuotedListGo fuel rest
    else if c = '"' then
      let inner := rest.takeWhile (fun x => x ≠ '"')
      match rest.drop inner.length with
      | _ :: after =>
        if inner = [] then parseQuotedListGo fuel after
        else inner :: parseQuotedListGo fuel after
      | [] => parseQuotedListGo fuel rest
    else parseQuotedListGo fuel rest

/-- `parseQuotedList`: all matches of `'([^']*)'|"([^"]*)"` in order,
skipping empty captures (the Go code drops them via its `!= ""` checks). -/
def parseQuotedList (s : List Char) : List (List Char) :=
  parseQuotedListGo (s.length + 1) s

/-- `parseColumnDef`: flags from case-insensitive substring checks, the
enumeration capture, the inline foreign key, then name and type from the
anchored head; a clause whose head does not match is skipped. -/
def parseColumnDef (s : List Char) : Option Column :=
  let up := upper s
  let nn := containsSub up (str "NOT NULL")
  let uq := containsSub up (str "UNIQUE")
  let pk := containsSub up (str "PRIMARY KEY")
  let ci := ((findCheckIn s).map parseQuotedList).getD []
  let fk := findRefs s
  match matchColHead s with
  | none => none
  | some (name, tyFull) => some ⟨name, normalizeType tyFull, nn, uq, pk, ci, fk⟩

/-- Replace the first column satisfying `p` (Go's loop with `break`). -/
def updateFirst (p : Column → Bool) (f : Column → Column) : List Column → List Column
  | [] => []
  | c :: cs => if p c then f c :: cs else c :: updateFirst p f cs

/-- Scanner for the table-level foreign-key pattern
`(?i)FOREIGN\s+KEY\s*\(\s*["']?(\w+)["']?\s*\)\s+REFERENCES\s+["']?(\w+)["']?\s*\(\s*["']?(\w+)["']?\s*\)`
anchored at the head; returns the local column, target table and target
column. -/
def matchFKAt (s : List Char) : Option (List Char × List Char × List Char) := do
  let r1 ← litCI (str "FOREIGN") s
  let r2 ← spaces1 r1
  let r3 ← litCI (str "KEY") r2
  let r4 ← chomp '(' (dropReSpaces r3)
  let (col, r5) ← word1 (dropQuote (dropReSpaces r4))
  let r6 ← chomp ')' (dropReSpaces (dropQuote r5))
  let r7 ← spaces1 r6
  let r8 ← litCI (str "REFERENCES") r7
  let r9 ← spaces1 r8
  let (tbl, r10) ← word1 (dropQuote r9)
  let r11 ← chomp '(' (dropReSpaces (dropQuote r10))
  let (rcol, r12) ← word1 (dropQuote (dropReSpaces r11))
  let _ ← chomp ')' (dropReSpaces (dropQuote r12))
  pure (col, tbl, rcol)

/-- First match of the table-level foreign-key pattern in the clause. -/
def findFK : List Char → Option (List Char × List Char × List Char)
  | [] => none
  | c :: rest =>
    match matchFKAt (c :: rest) with
    | some m => some m
    | none => findFK rest

/-- `applyForeignKey` (also the body of `applyTableConstraint`): attach the
foreign key to the first column with the matching name. -/
def applyForeignKey (t : Table) (s : List Char) : Table :=
  match findFK s with
  | some (col, tbl, rcol) =>
    ⟨t.name, updateFirst (fun c => decide (c.name = col))
      (fun c => { c with foreignKey := some ⟨tbl, rcol⟩ }) t.columns⟩
  | none => t

/-- Scanner for `(?i)PRIMARY\s+KEY\s*\(\s*([^)]+)\)` anchored at the head;
returns the column-name list capture. -/
def matchPKAt (s : List Char) : Option (List Char) := do
  let r1 ← litCI (str "PRIMARY") s
  let r2 ← spaces1 r1
  let r3 ← litCI (str "KEY") r2
  let r4 ← chomp '(' (dropReSpaces r3)
  parenCapture r4

/-- First match of the PRIMARY KEY pattern in the clause. -/
def findPK : List Char → Option (List Char)
  | [] => none
  | c :: rest =>
    match matchPKAt (c :: rest) with
    | some cap => some cap
    | none => findPK rest

/-- `applyPrimaryKey`: mark each named column (first occurrence each) as a
primary key. -/
def applyPrimaryKey (t : Table) (s : List Char) : Table :=
  match findPK s with
  | some cap =>
    (splitOnChar ',' cap).foldl (fun t part =>
      let nm := trimSpace part
      ⟨t.name, updateFirst (fun c => decide (c.name = nm))
        (fun c => { c with primaryKey := true }) t.columns⟩) t
  | none => t

/-- `parseTableBody`: split the body into top-level clauses and fold each
clause into the table. -/
def parseTableBody (tableName : List Char) (body : List Char) : Table :=
  (splitTopLevel body ',').foldl (fun t p0 =>
    let p := trimSpace p0
    if p = [] then t
    else if startsWith (upper p) (str "CONSTRAINT ") then applyForeignKey t p
    else if startsWith (upper p) (str "PRIMARY KEY") then applyPrimaryKey t p
    else if startsWith (upper p) (str "FOREIGN KEY") then applyForeignKey t p
    else
      match parseColumnDef p with
      | some col => ⟨t.name, t.columns ++ [col]⟩
      | none => t) ⟨tableName, []⟩

/-- `normalizeSQL`: drop blank and comment lines, join the rest with single
spaces (each kept line is preceded by one space). -/
def normalizeSQL (s : List Char) : List Char :=
  (splitLines s).foldl (fun b line =>
    let l := trimSpace (dropCR line)
    if l = [] || startsWith l (str "--") then b else b ++ ' ' :: l) []

/-- Pair each CREATE TABLE match with its declaration segment, which runs
from the match start to the next match start (or the end of the text). -/
def segmentsOf (content : List Char) : List (Nat × List Char) → List (List Char × List Char)
  | [] => []
  | [(p, name)] => [(name, content.drop p)]
  | (p, name) :: (q, name2) :: rest =>
    (name, (content.drop p).take (q - p)) :: segmentsOf content ((q, name2) :: rest)

/-- `parseTables`: normalize, find the declarations, extract each balanced
body and parse it (`parseTableBody` never fails, matching the Go source
where the nil check never fires). -/
def parseTables (content0 : List Char) : List Table :=
  let content := normalizeSQL content0
  let ms := findCreatesGo (content.length + 1) content 0
  (segmentsOf content ms).map (fun m => parseTableBody m.1 (extractParenBlock m.2))

/-- `ParseFile`: tables in dependency order, together with the returned
error, which is the literal `nil` of the source. -/
def ParseFile (content : List Char) : List Table × Option (List Char) :=
  (topologicalSort (parseTables content), none)

/-! ## Model-output recovery parser (internal/generator, part of ollama.go)

`encoding/json` is standard-library code, modelled here by a recursive
descent JSON reader for the target type `[]map[string]interface{}`: the top
value must be an array whose elements are objects; number values are kept
as their lexemes (Go decodes them to float64, whose exact value on the
integer literals appearing in the claims carries the same information);
strings support the common escapes.  Strictness matches Go where the claims
depend on it: a separator must be followed by a value, so a trailing comma
is a decode error. -/

/-- A decoded JSON value. -/
inductive JValue where
  | jnull : JValue
  | jbool : Bool → JValue
  | jnum : List Char → JValue
  | jstr : List Char → JValue
  | jarr : List JValue → JValue
  | jobj : List (List Char × JValue) → JValue

/-- JSON whitespace. -/
def jsWs (c : Char) : Bool := c = ' ' || c = '\t' || c = '\n' || c = '\r'

/-- Skip JSON whitespace. -/
def skipWs (s : List Char) : List Char := s.dropWhile jsWs

/-- Read a JSON string body after the opening quote, handling the common
escapes; returns the decoded content and the rest after the closing
quote. -/
def jsString : Nat → List Char → Except Unit (List Char × List Char)
  | 0, _ => .error ()
  | _ + 1, [] => .error ()
  | fuel + 1, c :: rest =>
    if c = '"' then .ok ([], rest)
    else if c = '\\' then
      match rest with
      | [] => .error ()
      | e :: rest2 =>
        let dec : Except Unit Char :=
          if e = '"' then .ok '"'
          else if e = '\\' then .ok '\\'
          else if e = '/' then .ok '/'
          else if e = 'b' then .ok '\x08'
          else if e = 'f' then .ok '\x0c'
          else if e = 'n' then .ok '\n'
          else if e = 'r' then .ok '\r'
          else if e = 't' then .ok '\t'
          else .error ()
        match dec with
        | .ok d =>
          match jsString fuel rest2 with
          | .ok (body, rem) => .ok (d :: body, rem)
          | .error _ => .error ()
        | .error _ => .error ()
    else
      match jsString fuel rest with
      | .ok (body, rem) => .ok (c :: body, rem)
      | .error _ => .error ()

/-- Read a JSON number lexeme (RFC 8259 grammar: optional minus, integer
part without leading zeros, optional fraction, optional exponent); returns
the lexeme and the rest. -/
def jsNumber (s : List Char) : Except Unit (List Char × List Char) :=
  let (neg, r1) :=
    match s with
    | '-' :: r => (['-'], r)
    | _ => (([] : List Char), s)
  match r1 with
  | [] => .error ()
  | d :: _ =>
    if !d.isDigit then .error ()
    else
      let intPart := if d = '0' then ['0'] else r1.takeWhile Char.isDigit
      let r2 := r1.drop intPart.length
      if d = '0' && (r2.head?.map Char.isDigit).getD false then .error ()
      else
        let (fracPart, r3) :=
          match r2 with
          | '.' :: rf =>
            let ds := rf.takeWhile Char.isDigit
            if ds = [] then (([] : List Char), r2)
            else ('.' :: ds, rf.drop ds.length)
          | _ => (([] : List Char), r2)
        if r2.head? = some '.' && fracPart = [] then .error ()
        else
          match r3 with
          | e :: re =>
            if e = 'e' || e = 'E' then
              let (sgn, rs) :=
                match re with
                | '+' :: rr => (['+'], rr)
                | '-' :: rr => (['-'], rr)
                | _ => (([] : List Char), re)
              let ds := rs.takeWhile Char.isDigit
              if ds = [] then .error ()
              else .ok (neg ++ intPart ++ fracPart ++ e :: sgn ++ ds, rs.drop ds.length)
            else .ok (neg ++ intPart ++ fracPart, r3)
          | [] => .ok (neg ++ intPart ++ fracPart, r3)

/-- Set a field in a decoded object the way assignment to a Go map does:
overwrite an existing key, otherwise add the key. -/
def setField (k : List Char) (v : JValue) : List (List Char × JValue) → List (List Char × JValue)
  | [] => [(k, v)]
  | (k0, v0) :: fs => if k0 = k then (k, v) :: fs else (k0, v0) :: setField k v fs

/-- Parsing modes of the single fueled JSON reader: a full value, the
element loop of an array (positioned at a value), the member loop of an
object (positioned at a key). -/
inductive JMode where
  | value : JMode
  | elems : JMode
  | fields : JMode

/-- Partial results of the JSON reader, per mode. -/
inductive JPartial where
  | val : JValue → JPartial
  | list : List JValue → JPartial
  | flds : List (List Char × JValue) → JPartial

/-- The fueled JSON reader.  All recursive calls decrease the fuel, which
is instantiated at twice the input length plus two: every recursive call
consumes at least one character or alternates with one that does. -/
def jsParse : Nat → JMode → List Char → Except Unit (JPartial × List Char)
  | 0, _, _ => .error ()
  | fuel + 1, .value, s =>
    match skipWs s with
    | [] => .error ()
    | c :: rest =>
      if c = '\x7b' then
        match skipWs rest with
        | '\x7d' :: rem => .ok (.val (.jobj []), rem)
        | other =>
          match jsParse fuel .fields other with
          | .ok (.flds fs, rem) => .ok (.val (.jobj fs), rem)
          | _ => .error ()
      else if c = '[' then
        match skipWs rest with
        | ']' :: rem => .ok (.val (.jarr []), rem)
        | other =>
          match jsParse fuel .elems other with
          | .ok (.list vs, rem) => .ok (.val (.jarr vs), rem)
          | _ => .error ()
      else if c = '"' then
        match jsString fuel rest with
        | .ok (body, rem) => .ok (.val (.jstr body), rem)
        | .error _ => .error ()
      else if startsWith (c :: rest) (str "true") then
        .ok (.val (.jbool true), (c :: rest).drop 4)
      else if startsWith (c :: rest) (str "false") then
        .ok (.val (.jbool false), (c :: rest).drop 5)
      else if startsWith (c :: rest) (str "null") then
        .ok (.val .jnull, (c :: rest).drop 4)
      else
        match jsNumber (c :: rest) with
        | .ok (lex, rem) => .ok (.val (.jnum lex), rem)
        | .error _ => .error ()
  | fuel + 1, .elems, s =>
    match jsParse fuel .value s with
    | .ok (.val v, rem) =>
      (match skipWs rem with
       | ',' :: rem2 =>
         match jsParse fuel .elems rem2 with
         | .ok (.list vs, rem3) => .ok (.list (v :: vs), rem3)
         | _ => .error ()
       | ']' :: rem2 => .ok (.list [v], rem2)
       | _ => .error ())
    | _ => .error ()
  | fuel + 1, .fields, s =>
    match skipWs s with
    | '"' :: rest =>
      match jsString fuel rest with
      | .ok (key, rem) =>
        (match skipWs rem with
         | ':' :: rem2 =>
           match jsParse fuel .value rem2 with
           | .ok (.val v, rem3) =>
             (match skipWs rem3 with
              | ',' :: rem4 =>
                match jsParse fuel .fields rem4 with
                | .ok (.flds fs, rem5) => .ok (.flds (setField key v fs), rem5)
                | _ => .error ()
              | '\x7d' :: rem4 => .ok (.flds [(key, v)], rem4)
              | _ => .error ())
           | _ => .error ()
         | _ => .error ())
      | .error _ => .error ()
    | _ => .error ()

/-- `json.Unmarshal` into `[]map[string]interface{}`: the top-level value
must be an array of objects (a JSON `null` decodes to a nil slice, and a
null element to a nil map), with nothing but whitespace after it. -/
def jsonUnmarshalRows (s : List Char) : Except Unit (List (List (List Char × JValue))) :=
  match jsParse (2 * s.length + 2) .value s with
  | .error _ => .error ()
  | .ok (.val v, rem) =>
    if skipWs rem ≠ [] then .error ()
    else
      match v with
      | .jnull => .ok []
      | .jarr elems =>
        elems.foldr (fun e acc =>
          match acc with
          | .error _ => .error ()
          | .ok rows =>
            match e with
            | .jobj fs => .ok (fs :: rows)
            | .jnull => .ok ([] :: rows)
            | _ => .error ()) (.ok [])
      | _ => .error ()
  | .ok _ => .error ()

/-- `repairJSON`: remove the listed trailing-separator artifacts, in the
source's order, then trim. -/
def repairJSON (s0 : List Char) : List Char :=
  let s1 := replaceAll (str ",]") (str "]") s0
  let s2 := replaceAll (str ", ]") (str "]") s1
  let s3 := replaceAll (str " ,]") (str "]") s2
  let s4 := replaceAll (str ",\x7d") (str "\x7d") s3
  let s5 := replaceAll (str ", \x7d") (str "\x7d") s4
  trimSpace s5

/-- `removeIncompleteLastObject`: cut the payload back to the
second-to-last closing brace and re-close the array when the tail after it
is incomplete. -/
def removeIncompleteLastObject (s : List Char) : List Char :=
  match lastIndexOfSub (str "\x7d") s with
  | none => str "[]"
  | some lastBrace =>
    match lastIndexOfSub (str "\x7d") (s.take lastBrace) with
    | none => s
    | some secondLast =>
      let after0 := trimSpace (s.drop (secondLast + 1))
      let after :=
        if after0.head? = some ',' then trimSpace after0.tail else after0
      if after.length > 2 && !endsWith after (str "\x7d]") then
        s.take (secondLast + 1) ++ [']']
      else s

/-- Errors of `parseJSONResponse`; each carries the bounded preview the
source formats into its message. -/
inductive PErr where
  | noArray : List Char → PErr
  | unmarshal : List Char → PErr

/-- The bounded preview: at most `n` characters, with an ellipsis when
truncated. -/
def previewN (n : Nat) (s : List Char) : List Char :=
  if s.length > n then s.take n ++ str "..." else s

/-- Strip DeepSeek think blocks, in the source's order: first drop through
a closing marker, then handle a remaining opening marker with or without a
closing one. -/
def stripThink (raw0 : List Char) : List Char :=
  let raw :=
    match indexOfSub (str "</think>") raw0 with
    | some idx => trimSpace (raw0.drop (idx + 8))
    | none => raw0
  match indexOfSub (str "<think>") raw with
  | some idx =>
    (match indexOfSub (str "</think>") raw with
     | some endIdx => trimSpace (raw.drop (endIdx + 8))
     | none => trimSpace (raw.take idx))
  | none => raw

/-- `parseJSONResponse`: trim, strip think blocks and code fences, locate
the bracketed payload, repair it, decode it, and salvage the tail on a
first decode failure. -/
def parseJSONResponse (raw0 : List Char) :
    Except PErr (List (List (List Char × JValue))) :=
  let raw1 := trimSpace raw0
  let raw2 := stripThink raw1
  let raw := trimSpace (replaceAll (str "```") (str "")
    (replaceAll (str "```json") (str "") raw2))
  match indexOfSub (str "[") raw, lastIndexOfSub (str "]") raw with
  | some start, some e =>
    if e ≤ start then .error (.noArray (previewN 300 raw))
    else
      let jsonStr := repairJSON ((raw.drop start).take (e + 1 - start))
      match jsonUnmarshalRows jsonStr with
      | .ok rows => .ok rows
      | .error _ =>
        let jsonStr2 := removeIncompleteLastObject jsonStr
        match jsonUnmarshalRows jsonStr2 with
        | .ok rows => .ok rows
        | .error _ => .error (.unmarshal (previewN 500 jsonStr2))
  | _, _ => .error (.noArray (previewN 300 raw))

/-! ## Derived notions used by the statements and proofs -/

/-- The foreign-key reference graph restricted to distinct-table edges:
`a` references `b`, through some declared table named `a`, with `b`
declared and different from `a`. -/
def Edge (tables : List Table) (a b : List Char) : Prop :=
  a ≠ b ∧ b ∈ names tables ∧ ∃ t ∈ tables, t.name = a ∧ b ∈ t.dependsOn

/-- The edge relation is decidable, so concrete witnesses can check
individual edges by evaluation. -/
instance (tables : List Table) (a b : List Char) : Decidable (Edge tables a b) := by
  unfold Edge
  exact inferInstance

/-- No nonempty cycle in the distinct-table reference graph. -/
def Acyclic (tables : List Table) : Prop :=
  ∀ a, ¬ Relation.TransGen (Edge tables) a a

/-- The ghost DFS ancestor chain: `chainTo tables ps cur` says the pending
stack `ps` is a chain of tables each looked up successfully, each linking
to the next by a dependency, with distinct consecutive names, ending at the
name currently being visited. -/
def chainTo (tables : List Table) : List (List Char) → List Char → Prop
  | [], _ => True
  | p :: ps, cur =>
    (∃ tp, lookupTable tables p = some tp ∧ cur ∈ tp.dependsOn) ∧ p ≠ cur ∧
      chainTo tables ps p

/-- The ordering part of the DFS invariant: every table already in the
output has all its distinct-table declared dependencies earlier in the
output. -/
def topoInv (tables : List Table) (order : List Table) : Prop :=
  ∀ i (hi : i < order.length) (d : List Char),
    d ∈ (order.get ⟨i, hi⟩).dependsOn → d ≠ (order.get ⟨i, hi⟩).name →
    d ∈ names tables →
    ∃ j, ∃ hj : j < order.length, j < i ∧ (order.get ⟨j, hj⟩).name = d

/-- The DFS invariant, parameterized by the ghost pending stack `pend` of
names marked visited whose processing has not finished. -/
structure StateInv (tables : List Table) (pend : List (List Char)) (st : SortState) : Prop where
  nodup : (st.order.map Table.name).Nodup
  mem_tables : ∀ t ∈ st.order, t ∈ tables
  order_visited : ∀ n ∈ st.order.map Table.name, n ∈ st.visited
  pend_disjoint : ∀ n ∈ pend, n ∉ st.order.map Table.name
  visited_covered : ∀ n ∈ st.visited, n ∈ names tables →
    n ∈ pend ∨ n ∈ st.order.map Table.name
  topo : Acyclic tables → topoInv tables st.order

/-- What one completed `visit` call guarantees. -/
structure VisitPost (tables : List Table) (pend : List (List Char))
    (st st' : SortState) (n : List Char) : Prop where
  inv : StateInv tables pend st'
  vis_mono : ∀ m ∈ st.visited, m ∈ st'.visited
  n_vis : n ∈ st'.visited
  ord_prefix : st.order <+: st'.order

/-- The claimed property of `ParseFile`: the produced order is a
topological order of the reference graph restricted to distinct-table
edges with declared targets. -/
def parseOrderTopo (content : List Char) : Prop :=
  ∀ i (hi : i < (ParseFile content).1.length) (c : Column) (fk : ForeignKey),
    c ∈ ((ParseFile content).1.get ⟨i, hi⟩).columns → c.foreignKey = some fk →
    fk.refTable ≠ ((ParseFile content).1.get ⟨i, hi⟩).name →
    fk.refTable ∈ names (parseTables content) →
    ∃ j, ∃ hj : j < (ParseFile content).1.length, j < i ∧
      ((ParseFile content).1.get ⟨j, hj⟩).name = fk.refTable

/-- A table with one self-referencing foreign key removed per column:
columns whose foreign key targets the table's own name lose that foreign
key. -/
def removeSelfT (t : Table) : Table :=
  ⟨t.name, t.columns.map (fun c =>
    if (c.foreignKey.map ForeignKey.refTable) = some t.name then
      { c with foreignKey := none }
    else c)⟩

/-- Remove every self-referencing foreign key from a schema. -/
def removeSelfFK (tables : List Table) : List Table := tables.map removeSelfT

/-! ## Concrete inputs used by witnesses and counterexamples -/

/-- A schema whose two tables reference each other: a genuine two-table
cycle. -/
def cycSQL : List Char :=
  str "CREATE TABLE a (x int REFERENCES b(y));\nCREATE TABLE b (y int REFERENCES a(x));"

/-- A two-table schema whose second table references the first: an acyclic
reference graph. -/
def chainSQL : List Char :=
  str "CREATE TABLE a (x int);\nCREATE TABLE b (y int REFERENCES a(x));"

/-- The recovery-parser payload whose third record is truncated and that
has no closing bracket. -/
def truncatedJSON : List Char :=
  str "[\x7b\"x\":1\x7d,\x7b\"x\":2\x7d,\x7b\"x\":3"

/-- The recovery-parser payload with a trailing comma before the closing
bracket. -/
def trailingCommaJSON : List Char := str "[\x7b\"x\":1\x7d,]"

/-- A single-column table whose only column is an integer primary key. -/
def autoOnlyTable : Table :=
  ⟨str "t", [⟨str "id", str "integer", false, false, true, [], none⟩]⟩

/-- A two-column table with one integer primary key and one text column. -/
def mixedTable : Table :=
  ⟨str "t", [⟨str "id", str "integer", false, false, true, [], none⟩,
             ⟨str "name", str "text", true, false, false, [], none⟩]⟩

/-- A table with a self-referencing foreign key. -/
def selfRefTable : Table :=
  ⟨str "a", [⟨str "x", str "integer", false, false, false, [],
              some ⟨str "a", str "x"⟩⟩]⟩

/-- The column of table `b` of the cyclic schema, referencing table
`a`. -/
def cycColB : Column :=
  ⟨str "y", str "integer", false, false, false, [], some ⟨str "a", str "x"⟩⟩

/-- Shape of any `normalizeSQL` output: empty, or a single space followed
by text whose first and last characters are non-space, that contains no
newline, and that does not start with the comment marker. -/
def NormShape (u : List Char) : Prop :=
  u = [] ∨ ∃ c v, u = ' ' :: c :: v ∧ goIsSpace c = false ∧
    (∀ x, (c :: v).getLast? = some x → goIsSpace x = false) ∧ '\n' ∉ u ∧
    startsWith (c :: v) (str "--") = false

/-! # Theorems -/

/-! ## Characterizing dependsOn -/

theorem dedupFirstSeen_cons (x : List Char) (xs : List (List Char)) :
    dedupFirstSeen (x :: xs) = x :: dedupFirstSeen (xs.filter (fun y => y ≠ x)) := by
  rw [dedupFirstSeen]

theorem mem_dedupFirstSeen (x : List Char) :
    ∀ l : List (List Char), x ∈ dedupFirstSeen l ↔ x ∈ l := by
  intro l
  induction l using dedupFirstSeen.induct with
  | case1 => simp [dedupFirstSeen]
  | case2 y ys ih =>
    rw [dedupFirstSeen_cons, List.mem_cons, List.mem_cons, ih]
    by_cases hxy : x = y
    · simp [hxy]
    · simp only [hxy, false_or, List.mem_filter, decide_eq_true_eq]
      exact ⟨fun h => h.1, fun h => ⟨h, hxy⟩⟩

theorem dependsOnAux_eq (cs : List Column) :
    ∀ out, dependsOnAux out cs =
      out ++ dedupFirstSeen ((refsOfCols cs).filter (fun r => r ∉ out)) := by
  induction cs with
  | nil => intro out; simp [dependsOnAux, refsOfCols, dedupFirstSeen]
  | cons c cs ih =>
    intro out
    match hfk : c.foreignKey with
    | none =>
      have hr : refsOfCols (c :: cs) = refsOfCols cs := by
        simp [refsOfCols, List.filterMap_cons, hfk]
      rw [dependsOnAux, hfk, hr, ih]
    | some fk =>
      have hr : refsOfCols (c :: cs) = fk.refTable :: refsOfCols cs := by
        simp [refsOfCols, List.filterMap_cons, hfk]
      rw [dependsOnAux, hfk, hr]
      by_cases hmem : fk.refTable ∈ out
      · simp only [hmem, if_true]
        rw [ih]
        congr 2
        simp only [List.filter_cons]
        simp [hmem]
      · simp only [hmem, if_false]
        rw [ih]
        have h1 : (fk.refTable :: refsOfCols cs).filter (fun r => decide (r ∉ out)) =
            fk.refTable :: (refsOfCols cs).filter (fun r => decide (r ∉ out)) := by
          simp [List.filter_cons, hmem]
        rw [h1, dedupFirstSeen_cons]
        have h2 : ((refsOfCols cs).filter (fun r => decide (r ∉ out))).filter
              (fun y => decide (y ≠ fk.refTable)) =
            (refsOfCols cs).filter (fun r => decide (r ∉ out ++ [fk.refTable])) := by
          rw [List.filter_filter]
          apply List.filter_congr
          intro a _
          by_cases ha1 : a ∈ out <;> by_cases ha2 : a = fk.refTable <;>
            simp [ha1, ha2]
        rw [h2]
        simp

theorem dependsOn_eq (t : Table) : t.dependsOn = dedupFirstSeen (refNames t) := by
  rw [Table.dependsOn, dependsOnAux_eq]
  simp only [List.nil_append, refNames]
  congr 1
  apply List.filter_eq_self.mpr
  intro a _
  simp

theorem mem_dependsOn (t : Table) (d : List Char) :
    d ∈ t.dependsOn ↔ d ∈ refNames t := by
  rw [dependsOn_eq, mem_dedupFirstSeen]

theorem mem_dependsOn_of_column (t : Table) (c : Column) (fk : ForeignKey)
    (hc : c ∈ t.columns) (hfk : c.foreignKey = some fk) :
    fk.refTable ∈ t.dependsOn := by
  rw [mem_dependsOn]
  simp only [refNames, refsOfCols, List.mem_filterMap]
  exact ⟨c, hc, by rw [hfk]; rfl⟩

/-! ## C5: what dependsOn returns -/

/-- C5, counterexample: `DependsOn` does not exclude self-references — for
a table named `a` with a column whose foreign key references `a`, the
table's own name appears in the result, contradicting the claim that it
never does. -/
theorem C5_self_reference_included :
    selfRefTable.name ∈ selfRefTable.dependsOn := by decide

/-- C5, amended: for every table, `DependsOn` returns the de-duplicated,
first-seen-order list of the table names referenced by the columns'
foreign keys, self-references included: it equals the first-seen
de-duplication of the reference-name sequence taken over the columns in
order. -/
theorem C5_dependsOn_dedup_first_seen (t : Table) :
    t.dependsOn = dedupFirstSeen (refNames t) :=
  dependsOn_eq t

/-! ## C4: what NonAutoColumns excludes -/

/-- C4, counterexample: a column that is an integer primary key is not
absent from `NonAutoColumns` when every column of the table is an integer
primary key — the source then falls back to the full column list — so
absence is not equivalent to being flagged primary key with integer
type. -/
theorem C4_auto_only_column_present :
    (autoOnlyTable.columns.get ⟨0, by decide⟩) ∈ autoOnlyTable.nonAutoColumns ∧
      (autoOnlyTable.columns.get ⟨0, by decide⟩).primaryKey = true ∧
      (autoOnlyTable.columns.get ⟨0, by decide⟩).type = str "integer" := by
  decide

/-- C4, amended: for every table, `NonAutoColumns` excludes exactly the
columns flagged both primary key and integer, unless every column is such
a column, in which case the full column list is returned unchanged. -/
theorem C4_nonAutoColumns_spec (t : Table) :
    ((∃ c ∈ t.columns, ¬(c.primaryKey = true ∧ c.type = str "integer")) →
      t.nonAutoColumns =
        t.columns.filter (fun c => !(c.primaryKey && c.type = str "integer"))) ∧
    ((∀ c ∈ t.columns, c.primaryKey = true ∧ c.type = str "integer") →
      t.nonAutoColumns = t.columns) := by
  constructor
  · rintro ⟨c, hc, hnot⟩
    rw [Table.nonAutoColumns]
    have hne : t.columns.filter (fun c => !(c.primaryKey && c.type = str "integer")) ≠ [] := by
      intro hnil
      have h3 := List.filter_eq_nil_iff.mp hnil c hc
      apply hnot
      have h4 : (c.primaryKey && decide (c.type = str "integer")) = true := by
        by_contra h5
        exact h3 (by simp [Bool.eq_false_iff.mpr h5])
      rcases Bool.and_eq_true _ _ |>.mp h4 with ⟨h5, h6⟩
      exact ⟨h5, of_decide_eq_true h6⟩
    simp only [hne, if_false]
  · intro hall
    rw [Table.nonAutoColumns]
    have hnil : t.columns.filter (fun c => !(c.primaryKey && c.type = str "integer")) = [] := by
      apply List.filter_eq_nil_iff.mpr
      intro c hc
      rcases hall c hc with ⟨h1, h2⟩
      simp [h1, h2]
    simp only [hnil, if_true]

/-- C4, witness: the amended theorem applied to a concrete table with one
integer primary key and one text column. -/
theorem C4_nonAutoColumns_spec_witness :
    (∃ c ∈ mixedTable.columns, ¬(c.primaryKey = true ∧ c.type = str "integer")) ∧
      mixedTable.nonAutoColumns =
        mixedTable.columns.filter (fun c => !(c.primaryKey && c.type = str "integer")) :=
  ⟨by decide, (C4_nonAutoColumns_spec mixedTable).1 (by decide)⟩

/-! ## C9: ParseFile never fails -/

/-- C9: for every input text, `ParseFile` returns a nil error together with
a (possibly empty) table list; no input whatsoever makes schema loading
fail. -/
theorem C9_parseFile_no_error (content : List Char) :
    (ParseFile content).2 = none := rfl

/-! ## C2: the truncated-tail payload without a closing bracket -/

/-- C2, counterexample: on the input `[{"x":1},{"x":2},{"x":3` the
recovery parser does not succeed with the two complete records — it fails,
because the input contains no closing bracket at all. -/
theorem C2_truncated_not_two_records :
    parseJSONResponse truncatedJSON ≠
      Except.ok [[(str "x", JValue.jnum (str "1"))],
                 [(str "x", JValue.jnum (str "2"))]] := by
  intro h
  have heq : parseJSONResponse truncatedJSON =
      Except.error (PErr.noArray truncatedJSON) := by rfl
  rw [heq] at h
  exact Except.noConfusion h

/-- C2, amended: on the input `[{"x":1},{"x":2},{"x":3` the recovery
parser fails with the no-JSON-array error carrying the input as preview:
payload location requires both brackets and runs before any repair or
salvage, and this input has no `]`. -/
theorem C2_truncated_fails_no_array :
    parseJSONResponse truncatedJSON =
      Except.error (PErr.noArray truncatedJSON) := by rfl

/-! ## C7: the trailing-comma payload -/

/-- C7: on the input `[{"x":1},]` the recovery parser succeeds with
exactly one record mapping x to 1 — the repair pass removes the trailing
comma before the closing bracket. -/
theorem C7_trailing_comma_one_record :
    parseJSONResponse trailingCommaJSON =
      Except.ok [[(str "x", JValue.jnum (str "1"))]] := by rfl

/-! ## C3: cycles are not reported -/

/-- C3, counterexample: a schema whose two tables reference each other —
a genuine multi-table dependency cycle — still loads with a nil error, so
`ParseFile` does not report an error for cyclic schemas. -/
theorem C3_cycle_not_reported :
    (parseTables cycSQL).map Table.name = [str "a", str "b"] ∧
      (parseTables cycSQL).map Table.dependsOn = [[str "b"], [str "a"]] ∧
      (ParseFile cycSQL).2 = none := by decide

/-- C3, amended: a genuine multi-table dependency cycle is silently
resolved, not reported: on the mutually-referencing two-table schema,
`ParseFile` returns a nil error and an order that still lists each table
exactly once. -/
theorem C3_cycle_silently_resolved :
    (ParseFile cycSQL).1.map Table.name = [str "b", str "a"] ∧
      (ParseFile cycSQL).2 = none := by decide

/-! ## Basic facts about visit and lookupTable -/

theorem visit_succ_mem (tables : List Table) (f : Nat) (n : List Char)
    (st : SortState) (h : n ∈ st.visited) : visit tables (f + 1) n st = st := by
  simp [visit, h]

theorem visit_succ_none (tables : List Table) (f : Nat) (n : List Char)
    (st : SortState) (h : n ∉ st.visited) (hl : lookupTable tables n = none) :
    visit tables (f + 1) n st = ⟨n :: st.visited, st.order⟩ := by
  simp [visit, h, hl]

theorem visit_succ_some (tables : List Table) (f : Nat) (n : List Char)
    (st : SortState) (t : Table) (h : n ∉ st.visited)
    (hl : lookupTable tables n = some t) :
    visit tables (f + 1) n st =
      ⟨(t.dependsOn.foldl (fun s d => visit tables f d s) ⟨n :: st.visited, st.order⟩).visited,
        (t.dependsOn.foldl (fun s d => visit tables f d s) ⟨n :: st.visited, st.order⟩).order
          ++ [t]⟩ := by
  simp [visit, h, hl]

theorem lookupTable_some {tables : List Table} {n : List Char} {t : Table}
    (h : lookupTable tables n = some t) : t ∈ tables ∧ t.name = n := by
  have hmem := List.mem_of_find?_eq_some h
  have hp := List.find?_some h
  rw [List.mem_reverse] at hmem
  exact ⟨hmem, of_decide_eq_true hp⟩

theorem lookupTable_none {tables : List Table} {n : List Char}
    (h : lookupTable tables n = none) : n ∉ names tables := by
  intro hn
  rw [names, List.mem_map] at hn
  obtain ⟨t, ht, hname⟩ := hn
  have := List.find?_eq_none.mp h t (List.mem_reverse.mpr ht)
  simp [hname] at this

theorem name_mem_of_lookup_some {tables : List Table} {n : List Char} {t : Table}
    (h : lookupTable tables n = some t) : n ∈ names tables := by
  obtain ⟨hmem, hname⟩ := lookupTable_some h
  rw [names, List.mem_map]
  exact ⟨t, hmem, hname⟩

/-! ## Counting lemmas for the DFS fuel -/

theorem filter_length_mono {α : Type} (l : List α) (p q : α → Bool)
    (h : ∀ a, q a = true → p a = true) :
    (l.filter q).length ≤ (l.filter p).length := by
  induction l with
  | nil => simp
  | cons a l ih =>
    simp only [List.filter_cons]
    by_cases hq : q a = true
    · rw [if_pos hq, if_pos (h a hq)]
      simp only [List.length_cons]
      omega
    · rw [if_neg hq]
      by_cases hp : p a = true
      · rw [if_pos hp]
        exact Nat.le_succ_of_le ih
      · rw [if_neg hp]
        exact ih

theorem unvisitedCount_mono {tables : List Table} {st st' : SortState}
    (h : ∀ m ∈ st.visited, m ∈ st'.visited) :
    unvisitedCount tables st' ≤ unvisitedCount tables st := by
  apply filter_length_mono
  intro a ha
  simp only [decide_eq_true_eq] at ha ⊢
  exact fun hmem => ha (h a hmem)

theorem filter_notmem_cons_lt (l : List (List Char)) (n : List Char)
    (visited : List (List Char)) (hn : n ∈ l) (hnv : n ∉ visited) :
    (l.filter (fun m => decide (m ∉ n :: visited))).length <
      (l.filter (fun m => decide (m ∉ visited))).length := by
  induction l with
  | nil => cases hn
  | cons a l ih =>
    simp only [List.filter_cons]
    by_cases hd1 : a ∈ n :: visited
    · rw [if_neg (by simp [hd1])]
      by_cases hd2 : a ∈ visited
      · rw [if_neg (by simp [hd2])]
        have han : a ≠ n := by
          rintro rfl
          exact hnv hd2
        have hn' : n ∈ l := by
          rcases List.mem_cons.mp hn with h | h
          · exact absurd h.symm han
          · exact h
        exact ih hn'
      · rw [if_pos (by simp [hd2])]
        have hmono : (l.filter (fun m => decide (m ∉ n :: visited))).length ≤
            (l.filter (fun m => decide (m ∉ visited))).length := by
          apply filter_length_mono
          intro m hm
          simp only [decide_eq_true_eq, List.mem_cons] at hm ⊢
          exact fun h => hm (Or.inr h)
        simp only [List.length_cons]
        omega
    · have hd2 : a ∉ visited := fun h => hd1 (List.mem_cons.mpr (Or.inr h))
      have han : a ≠ n := fun h => hd1 (List.mem_cons.mpr (Or.inl h))
      rw [if_pos (by simp [hd1]), if_pos (by simp [hd2])]
      have hn' : n ∈ l := by
        rcases List.mem_cons.mp hn with h | h
        · exact absurd h.symm han
        · exact h
      have := ih hn'
      simp only [List.length_cons]
      omega

theorem unvisitedCount_cons_lt {tables : List Table} {st : SortState}
    {n : List Char} (hn : n ∈ names tables) (hnv : n ∉ st.visited)
    (o : List Table) :
    unvisitedCount tables ⟨n :: st.visited, o⟩ < unvisitedCount tables st :=
  filter_notmem_cons_lt (names tables) n st.visited hn hnv

/-! ## Monotonicity of visit -/

theorem visit_grow (tables : List Table) :
    ∀ fuel n st, (∀ m ∈ st.visited, m ∈ (visit tables fuel n st).visited) ∧
      st.order <+: (visit tables fuel n st).order := by
  intro fuel
  induction fuel with
  | zero => intro n st; exact ⟨fun m hm => hm, List.prefix_refl _⟩
  | succ f ih =>
    intro n st
    by_cases hv : n ∈ st.visited
    · rw [visit_succ_mem tables f n st hv]
      exact ⟨fun m hm => hm, List.prefix_refl _⟩
    · cases hlook : lookupTable tables n with
      | none =>
        rw [visit_succ_none tables f n st hv hlook]
        exact ⟨fun m hm => List.mem_cons_of_mem _ hm, List.prefix_refl _⟩
      | some t =>
        rw [visit_succ_some tables f n st t hv hlook]
        have hfold : ∀ (ds : List (List Char)) (s : SortState),
            (∀ m ∈ s.visited, m ∈ (ds.foldl (fun s d => visit tables f d s) s).visited) ∧
              s.order <+: (ds.foldl (fun s d => visit tables f d s) s).order := by
          intro ds
          induction ds with
          | nil => intro s; exact ⟨fun m hm => hm, List.prefix_refl _⟩
          | cons d ds ihds =>
            intro s
            simp only [List.foldl_cons]
            obtain ⟨h1, h2⟩ := ih d s
            obtain ⟨h3, h4⟩ := ihds (visit tables f d s)
            exact ⟨fun m hm => h3 m (h1 m hm), h2.trans h4⟩
        obtain ⟨h1, h2⟩ := hfold t.dependsOn ⟨n :: st.visited, st.order⟩
        constructor
        · intro m hm
          exact h1 m (List.mem_cons_of_mem _ hm)
        · exact h2.trans (List.prefix_append _ _)

/-! ## From the pending chain to a cycle -/

theorem chain_transGen (tables : List Table) :
    ∀ (P : List (List Char)) (cur d : List Char), chainTo tables P cur →
      cur ∈ names tables → d ∈ P → Relation.TransGen (Edge tables) d cur := by
  intro P
  induction P with
  | nil => intro cur d _ _ hd; cases hd
  | cons p ps ih =>
    intro cur d hch hcur hd
    obtain ⟨⟨tp, hlp, hdep⟩, hne, hch'⟩ := hch
    obtain ⟨htp, htpname⟩ := lookupTable_some hlp
    have hedge : Edge tables p cur := ⟨hne, hcur, tp, htp, htpname, hdep⟩
    rcases List.mem_cons.mp hd with h | h
    · exact h ▸ Relation.TransGen.single hedge
    · exact (ih p d hch' (name_mem_of_lookup_some hlp) h).tail hedge

/-! ## The DFS postcondition -/

theorem visit_post (tables : List Table) :
    ∀ fuel n st pend,
      unvisitedCount tables st < fuel →
      (∀ m ∈ pend, m ∈ st.visited) →
      (n ∈ st.visited ∨ chainTo tables pend n) →
      StateInv tables pend st →
      VisitPost tables pend st (visit tables fuel n st) n := by
  intro fuel
  induction fuel with
  | zero => intro n st pend hc; omega
  | succ f ih =>
    intro n st pend hcount hpend hchain hinv
    by_cases hv : n ∈ st.visited
    · rw [visit_succ_mem tables f n st hv]
      exact ⟨hinv, fun m hm => hm, hv, List.prefix_refl _⟩
    · have hchain' : chainTo tables pend n := hchain.resolve_left hv
      have hnpend : n ∉ pend := fun h => hv (hpend n h)
      cases hlook : lookupTable tables n with
      | none =>
        rw [visit_succ_none tables f n st hv hlook]
        have hnn : n ∉ names tables := lookupTable_none hlook
        refine ⟨⟨hinv.nodup, hinv.mem_tables, ?_, hinv.pend_disjoint, ?_, hinv.topo⟩,
          fun m hm => List.mem_cons_of_mem _ hm, List.mem_cons_self _ _,
          List.prefix_refl _⟩
        · intro m hm
          exact List.mem_cons_of_mem _ (hinv.order_visited m hm)
        · intro m hm hmn
          rcases List.mem_cons.mp hm with h | h
          · exact absurd (h ▸ hmn) hnn
          · exact hinv.visited_covered m h hmn
      | some t =>
        obtain ⟨htmem, htname⟩ := lookupTable_some hlook
        have hnames : n ∈ names tables := name_mem_of_lookup_some hlook
        have hinv1 : StateInv tables (n :: pend) ⟨n :: st.visited, st.order⟩ := by
          refine ⟨hinv.nodup, hinv.mem_tables, ?_, ?_, ?_, hinv.topo⟩
          · intro m hm
            exact List.mem_cons_of_mem _ (hinv.order_visited m hm)
          · intro m hm
            rcases List.mem_cons.mp hm with h | h
            · intro hmem
              exact hv (h ▸ hinv.order_visited m hmem)
            · exact hinv.pend_disjoint m h
          · intro m hm hmn
            rcases List.mem_cons.mp hm with h | h
            · exact Or.inl (h ▸ List.mem_cons_self _ _)
            · rcases hinv.visited_covered m h hmn with h2 | h2
              · exact Or.inl (List.mem_cons_of_mem _ h2)
              · exact Or.inr h2
        have hpend1 : ∀ m ∈ n :: pend, m ∈ (⟨n :: st.visited, st.order⟩ : SortState).visited := by
          intro m hm
          rcases List.mem_cons.mp hm with h | h
          · exact h ▸ List.mem_cons_self _ _
          · exact List.mem_cons_of_mem _ (hpend m h)
        have hcount1 : unvisitedCount tables ⟨n :: st.visited, st.order⟩ < f := by
          have := unvisitedCount_cons_lt hnames hv st.order
          omega
        have hfold : ∀ (ds : List (List Char)) (s : SortState),
            (∀ d ∈ ds, d ∈ t.dependsOn) →
            unvisitedCount tables s < f →
            (∀ m ∈ n :: pend, m ∈ s.visited) →
            StateInv tables (n :: pend) s →
            StateInv tables (n :: pend) (ds.foldl (fun s d => visit tables f d s) s) ∧
              (∀ m ∈ s.visited, m ∈ (ds.foldl (fun s d => visit tables f d s) s).visited) ∧
              (∀ d ∈ ds, d ∈ (ds.foldl (fun s d => visit tables f d s) s).visited) ∧
              s.order <+: (ds.foldl (fun s d => visit tables f d s) s).order := by
          intro ds
          induction ds with
          | nil =>
            intro s _ _ _ hinvs
            exact ⟨hinvs, fun m hm => hm, fun d hd => absurd hd (List.not_mem_nil d),
              List.prefix_refl _⟩
          | cons d ds ihds =>
            intro s hsub hcnt hpret hinvs
            simp only [List.foldl_cons]
            have hchd : d ∈ s.visited ∨ chainTo tables (n :: pend) d := by
              by_cases hdn : d = n
              · exact Or.inl (hdn ▸ hpret n (List.mem_cons_self _ _))
              · exact Or.inr ⟨⟨t, hlook, hsub d (List.mem_cons_self _ _)⟩,
                  fun he => hdn he.symm, hchain'⟩
            have hpost := ih d s (n :: pend) hcnt hpret hchd hinvs
            have hcnt' : unvisitedCount tables (visit tables f d s) < f :=
              lt_of_le_of_lt (unvisitedCount_mono hpost.vis_mono) hcnt
            have hpret' : ∀ m ∈ n :: pend, m ∈ (visit tables f d s).visited :=
              fun m hm => hpost.vis_mono m (hpret m hm)
            obtain ⟨hi1, hi2, hi3, hi4⟩ := ihds (visit tables f d s)
              (fun d' hd' => hsub d' (List.mem_cons_of_mem _ hd'))
              hcnt' hpret' hpost.inv
            refine ⟨hi1, ?_, ?_, hpost.ord_prefix.trans hi4⟩
            · intro m hm
              exact hi2 m (hpost.vis_mono m hm)
            · intro d' hd'
              rcases List.mem_cons.mp hd' with h | h
              · exact h ▸ hi2 d (hpost.n_vis)
              · exact hi3 d' h
        obtain ⟨hinv2, hmono2, hdeps2, hpref2⟩ :=
          hfold t.dependsOn ⟨n :: st.visited, st.order⟩ (fun d hd => hd)
            hcount1 hpend1 hinv1
        rw [visit_succ_some tables f n st t hv hlook]
        set st2 := t.dependsOn.foldl (fun s d => visit tables f d s)
          ⟨n :: st.visited, st.order⟩ with hst2
        have hn2 : n ∈ st2.visited := hmono2 n (List.mem_cons_self _ _)
        have hnnot2 : n ∉ st2.order.map Table.name :=
          hinv2.pend_disjoint n (List.mem_cons_self _ _)
        refine ⟨⟨?_, ?_, ?_, ?_, ?_, ?_⟩, ?_, ?_, ?_⟩
        · -- nodup
          rw [List.map_append]
          simp only [List.map_cons, List.map_nil, htname]
          rw [List.nodup_append]
          exact ⟨hinv2.nodup, List.nodup_singleton n,
            fun m hm hm2 => (List.mem_singleton.mp hm2 ▸ hnnot2) hm⟩
        · -- mem_tables
          intro u hu
          rcases List.mem_append.mp hu with h | h
          · exact hinv2.mem_tables u h
          · exact List.mem_singleton.mp h ▸ htmem
        · -- order_visited
          intro m hm
          rw [List.map_append] at hm
          rcases List.mem_append.mp hm with h | h
          · exact hinv2.order_visited m h
          · simp only [List.map_cons, List.map_nil, List.mem_singleton, htname] at h
            exact h ▸ hn2
        · -- pend_disjoint
          intro m hm
          have hmn : m ≠ n := by
            rintro rfl
            exact hv (hpend m hm)
          rw [List.map_append]
          intro hmem
          rcases List.mem_append.mp hmem with h | h
          · exact hinv2.pend_disjoint m (List.mem_cons_of_mem _ hm) h
          · simp only [List.map_cons, List.map_nil, List.mem_singleton, htname] at h
            exact hmn h
        · -- visited_covered
          intro m hm hmn
          rcases hinv2.visited_covered m hm hmn with h | h
          · rcases List.mem_cons.mp h with h2 | h2
            · refine Or.inr ?_
              rw [List.map_append]
              refine List.mem_append.mpr (Or.inr ?_)
              simp [htname, h2]
            · exact Or.inl h2
          · refine Or.inr ?_
            rw [List.map_append]
            exact List.mem_append.mpr (Or.inl h)
        · -- topo
          intro hacy
          show topoInv tables (st2.order ++ [t])
          have htopo2 := hinv2.topo hacy
          intro i hi d hd hdn hdnames
          rw [List.length_append, List.length_singleton] at hi
          by_cases hi2 : i < st2.order.length
          · have hget : (st2.order ++ [t]).get ⟨i, by simp only [List.length_append, List.length_singleton]; omega⟩ =
                st2.order.get ⟨i, hi2⟩ := List.get_append i hi2
            rw [hget] at hd hdn
            obtain ⟨j, hj, hji, hjname⟩ := htopo2 i hi2 d hd hdn hdnames
            refine ⟨j, by simp only [List.length_append, List.length_singleton]; omega, hji, ?_⟩
            have hgetj : (st2.order ++ [t]).get ⟨j, by simp only [List.length_append, List.length_singleton]; omega⟩ =
                st2.order.get ⟨j, hj⟩ := List.get_append j hj
            rw [hgetj]
            exact hjname
          · have hieq : i = st2.order.length := by omega
            have hget : (st2.order ++ [t]).get ⟨i, by simp only [List.length_append, List.length_singleton]; omega⟩ = t := by
              subst hieq
              simp
            rw [hget] at hd hdn
            rw [htname] at hdn
            have hd2 : d ∈ st2.visited := hdeps2 d hd
            rcases hinv2.visited_covered d hd2 hdnames with h | h
            · rcases List.mem_cons.mp h with h2 | h2
              · exact absurd h2 hdn
              · exfalso
                have htrans := chain_transGen tables pend n d hchain' hnames h2
                have hedge : Edge tables n d :=
                  ⟨fun he => hdn he.symm, hdnames, t, htmem, htname, hd⟩
                exact hacy d (htrans.tail hedge)
            · rw [List.mem_map] at h
              obtain ⟨u, hu, huname⟩ := h
              obtain ⟨⟨j, hj⟩, hju⟩ := List.mem_iff_get.mp hu
              refine ⟨j, by simp only [List.length_append, List.length_singleton]; omega, by omega, ?_⟩
              have hgetj : (st2.order ++ [t]).get ⟨j, by simp only [List.length_append, List.length_singleton]; omega⟩ =
                  st2.order.get ⟨j, hj⟩ := List.get_append j hj
              rw [hgetj, hju]
              exact huname
        · -- vis_mono
          intro m hm
          exact hmono2 m (List.mem_cons_of_mem _ hm)
        · -- n_vis
          exact hn2
        · -- ord_prefix
          exact hpref2.trans (List.prefix_append _ _)

/-! ## The top-level fold of topologicalSort -/

theorem unvisitedCount_le (tables : List Table) (st : SortState) :
    unvisitedCount tables st ≤ tables.length := by
  calc unvisitedCount tables st ≤ (names tables).length := List.length_filter_le _ _
    _ = tables.length := by simp [names]

theorem sortFold_post (tables : List Table) :
    ∀ (ts : List Table) (st : SortState),
      StateInv tables [] st →
      StateInv tables []
          (ts.foldl (fun s x => visit tables (tables.length + 1) x.name s) st) ∧
        (∀ x ∈ ts, x.name ∈
          (ts.foldl (fun s x => visit tables (tables.length + 1) x.name s) st).visited) := by
  intro ts
  induction ts with
  | nil =>
    intro st hinv
    exact ⟨hinv, fun x hx => absurd hx (List.not_mem_nil x)⟩
  | cons u ts ih =>
    intro st hinv
    simp only [List.foldl_cons]
    have hcount : unvisitedCount tables st < tables.length + 1 :=
      Nat.lt_succ_of_le (unvisitedCount_le tables st)
    have hpost := visit_post tables (tables.length + 1) u.name st []
      hcount (fun m hm => absurd hm (List.not_mem_nil m)) (Or.inr trivial) hinv
    obtain ⟨hinv', hmem'⟩ := ih (visit tables (tables.length + 1) u.name st) hpost.inv
    refine ⟨hinv', ?_⟩
    intro x hx
    rcases List.mem_cons.mp hx with h | h
    · -- the later fold only grows the visited set
      have hgrow : ∀ (ts' : List Table) (s : SortState),
          s.visited ⊆ (ts'.foldl (fun s x => visit tables (tables.length + 1) x.name s) s).visited := by
        intro ts'
        induction ts' with
        | nil => intro s m hm; exact hm
        | cons v ts' ihv =>
          intro s m hm
          simp only [List.foldl_cons]
          exact ihv _ ((visit_grow tables (tables.length + 1) v.name s).1 m hm)
      exact hgrow ts _ (h ▸ hpost.n_vis)
    · exact hmem' x h

theorem initial_inv (tables : List Table) : StateInv tables [] ⟨[], []⟩ := by
  refine ⟨List.nodup_nil, ?_, ?_, ?_, ?_, ?_⟩
  · intro t ht; cases ht
  · intro n hn; cases hn
  · intro n hn; cases hn
  · intro n hn _; cases hn
  · intro _ i hi
    simp at hi

theorem topologicalSort_inv (tables : List Table) :
    StateInv tables []
        ⟨(tables.foldl (fun st t => visit tables (tables.length + 1) t.name st)
            ⟨[], []⟩).visited, topologicalSort tables⟩ ∧
      ∀ t ∈ tables, t.name ∈
        (tables.foldl (fun st t => visit tables (tables.length + 1) t.name st)
            ⟨[], []⟩).visited := by
  obtain ⟨hinv, hmem⟩ := sortFold_post tables tables ⟨[], []⟩ (initial_inv tables)
  constructor
  · exact hinv
  · exact hmem

/-! ## C10: the sort is a permutation -/

/-- C10: for every list of tables with pairwise-distinct names,
`topologicalSort` returns a permutation of the input — each input table
appears in the output exactly once, regardless of cycles, self-references
or dangling foreign keys. -/
theorem C10_topologicalSort_perm (tables : List Table)
    (h : (names tables).Nodup) : (topologicalSort tables).Perm tables := by
  obtain ⟨hinv, hmem⟩ := topologicalSort_inv tables
  have hnodupOrder : ((topologicalSort tables).map Table.name).Nodup := hinv.nodup
  have hsub : ∀ u ∈ topologicalSort tables, u ∈ tables := hinv.mem_tables
  have hall : ∀ t ∈ tables, t ∈ topologicalSort tables := by
    intro t ht
    have hvis := hmem t ht
    have hname : t.name ∈ names tables := List.mem_map_of_mem Table.name ht
    rcases hinv.visited_covered t.name hvis hname with h2 | h2
    · cases h2
    · rw [List.mem_map] at h2
      obtain ⟨u, hu, huname⟩ := h2
      have : u = t := List.inj_on_of_nodup_map h (hsub u hu) ht huname
      exact this ▸ hu
  have hnodup1 : (topologicalSort tables).Nodup := hnodupOrder.of_map
  have hnodup2 : tables.Nodup := h.of_map
  apply List.perm_iff_count.mpr
  intro u
  by_cases hu : u ∈ tables
  · rw [List.count_eq_one_of_mem hnodup2 hu,
      List.count_eq_one_of_mem hnodup1 (hall u hu)]
  · rw [List.count_eq_zero_of_not_mem hu,
      List.count_eq_zero_of_not_mem (fun hmem2 => hu (hsub u hmem2))]

/-- C10, witness: the permutation property at a concrete two-table
schema. -/
theorem C10_topologicalSort_perm_witness :
    (names (parseTables chainSQL)).Nodup ∧
      (topologicalSort (parseTables chainSQL)).Perm (parseTables chainSQL) :=
  ⟨by decide, C10_topologicalSort_perm (parseTables chainSQL) (by decide)⟩

/-! ## C1: the order is topological on acyclic schemas -/

/-- C1, amended: for every schema text whose parsed reference graph
restricted to distinct-table declared edges is acyclic, the order returned
by `ParseFile` is a valid topological order: every table with a column
whose foreign key references a different declared table appears strictly
after that table. -/
theorem C1_topological_order (content : List Char)
    (hacy : Acyclic (parseTables content)) : parseOrderTopo content := by
  obtain ⟨hinv, _⟩ := topologicalSort_inv (parseTables content)
  have htopo := hinv.topo hacy
  intro i hi c fk hc hfk hne hmem
  have hd : fk.refTable ∈ ((ParseFile content).1.get ⟨i, hi⟩).dependsOn :=
    mem_dependsOn_of_column _ c fk hc hfk
  exact htopo i hi fk.refTable hd hne hmem

/-- C1, counterexample: on the mutually-referencing two-table schema the
claim fails as stated — the first table of the produced order references
the second, so no valid topological position exists and the universally
quantified property is false. -/
theorem C1_not_topological_on_cycle : ¬ parseOrderTopo cycSQL := by
  intro h
  obtain ⟨j, hj, hj0, _⟩ := h 0 (by decide) cycColB ⟨str "a", str "x"⟩
    (by decide) (by decide) (by decide) (by decide)
  omega

/-- The two-table chain schema is acyclic: its only distinct-table edge
goes from `b` to `a` and no edge leaves `a`. -/
theorem acyclic_chainSQL : Acyclic (parseTables chainSQL) := by
  have hnm : names (parseTables chainSQL) = [str "a", str "b"] := by decide
  have hch : ∀ x y, Edge (parseTables chainSQL) x y → x = str "b" ∧ y = str "a" := by
    intro x y h
    have hx : x ∈ names (parseTables chainSQL) := by
      obtain ⟨_, _, t, ht, hname, _⟩ := h
      exact hname ▸ List.mem_map_of_mem Table.name ht
    have hy : y ∈ names (parseTables chainSQL) := h.2.1
    rw [hnm] at hx hy
    rcases List.mem_cons.mp hx with hx1 | hx2
    · exfalso
      rcases List.mem_cons.mp hy with hy1 | hy2
      · exact h.1 (hx1.trans hy1.symm)
      · have hy3 : y = str "b" := by simpa using hy2
        subst hx1; subst hy3
        revert h
        decide
    · have hx3 : x = str "b" := by simpa using hx2
      subst hx3
      rcases List.mem_cons.mp hy with hy1 | hy2
      · exact ⟨rfl, hy1⟩
      · have hy3 : y = str "b" := by simpa using hy2
        subst hy3
        exact absurd rfl h.1
  intro x hx
  obtain ⟨y, he, hrt⟩ := (Relation.TransGen.head'_iff).mp hx
  obtain ⟨hxb, hya⟩ := hch x y he
  subst hya
  rcases Relation.ReflTransGen.cases_head hrt with heq | ⟨z, he2, _⟩
  · subst hxb
    exact absurd heq (by decide)
  · exact absurd (hch _ _ he2).1 (by decide)

/-- C1, witness: the amended theorem applied to the acyclic two-table
chain schema. -/
theorem C1_topological_order_witness :
    Acyclic (parseTables chainSQL) ∧ parseOrderTopo chainSQL :=
  ⟨acyclic_chainSQL, C1_topological_order chainSQL acyclic_chainSQL⟩

/-! ## C6: self-referencing foreign keys do not matter -/

theorem name_removeSelfT (t : Table) : (removeSelfT t).name = t.name := rfl

theorem find_map_removeSelfT (n : List Char) :
    ∀ l : List Table,
      (l.map removeSelfT).find? (fun t => decide (t.name = n)) =
        (l.find? (fun t => decide (t.name = n))).map removeSelfT := by
  intro l
  induction l with
  | nil => rfl
  | cons u l ih =>
    simp only [List.map_cons, List.find?_cons, name_removeSelfT]
    cases hdec : decide (u.name = n) with
    | false => exact ih
    | true => rfl

theorem lookup_removeSelfFK (tables : List Table) (n : List Char) :
    lookupTable (removeSelfFK tables) n = (lookupTable tables n).map removeSelfT := by
  rw [lookupTable, lookupTable, removeSelfFK, ← List.map_reverse]
  exact find_map_removeSelfT n tables.reverse

theorem refsOfCols_cons (c : Column) (cs : List Column) :
    refsOfCols (c :: cs) =
      match c.foreignKey with
      | some fk => fk.refTable :: refsOfCols cs
      | none => refsOfCols cs := by
  cases hfk : c.foreignKey <;> simp [refsOfCols, List.filterMap_cons, hfk]

theorem refsOfCols_removeSelf (nm : List Char) :
    ∀ cs : List Column,
      refsOfCols (cs.map (fun c =>
        if (c.foreignKey.map ForeignKey.refTable) = some nm then
          { c with foreignKey := none } else c)) =
        (refsOfCols cs).filter (fun d => decide (d ≠ nm)) := by
  intro cs
  induction cs with
  | nil => rfl
  | cons c cs ih =>
    simp only [List.map_cons]
    by_cases h : (c.foreignKey.map ForeignKey.refTable) = some nm
    · rw [if_pos h]
      cases hfk : c.foreignKey with
      | none => simp [hfk] at h
      | some fk =>
        have hr : fk.refTable = nm := by
          rw [hfk] at h
          simpa using h
        rw [refsOfCols_cons, refsOfCols_cons]
        simp only [hfk]
        rw [List.filter_cons, if_neg (by simp [hr])]
        exact ih
    · rw [if_neg h]
      cases hfk : c.foreignKey with
      | none =>
        rw [refsOfCols_cons, refsOfCols_cons]
        simp only [hfk]
        exact ih
      | some fk =>
        have hr : fk.refTable ≠ nm := by
          rw [hfk] at h
          simpa using h
        rw [refsOfCols_cons, refsOfCols_cons]
        simp only [hfk]
        rw [List.filter_cons, if_pos (by simpa using hr)]
        rw [ih]

theorem refNames_removeSelfT (t : Table) :
    refNames (removeSelfT t) = (refNames t).filter (fun d => decide (d ≠ t.name)) := by
  rw [refNames, refNames, removeSelfT]
  exact refsOfCols_removeSelf t.name t.columns

theorem dedupFirstSeen_filter (p : List Char → Bool) :
    ∀ l, dedupFirstSeen (l.filter p) = (dedupFirstSeen l).filter p := by
  intro l
  induction l using dedupFirstSeen.induct with
  | case1 => simp [dedupFirstSeen]
  | case2 x xs ih =>
    rw [dedupFirstSeen_cons, List.filter_cons]
    by_cases hx : p x = true
    · rw [if_pos hx, List.filter_cons, if_pos hx]
      have hcomm : (xs.filter p).filter (fun y => decide (y ≠ x)) =
          (xs.filter (fun y => decide (y ≠ x))).filter p := by
        rw [List.filter_filter, List.filter_filter]
        apply List.filter_congr
        intro a _
        exact Bool.and_comm _ _
      rw [dedupFirstSeen_cons, hcomm, ih]
    · rw [if_neg hx]
      have hps : xs.filter p = (xs.filter (fun y => decide (y ≠ x))).filter p := by
        rw [List.filter_filter]
        apply List.filter_congr
        intro a _
        by_cases ha : a = x
        · subst ha
          simp [Bool.eq_false_iff.mpr hx]
        · simp [ha]
      rw [hps, ih, List.filter_cons, if_neg hx]

theorem dependsOn_removeSelfT (t : Table) :
    (removeSelfT t).dependsOn = t.dependsOn.filter (fun d => decide (d ≠ t.name)) := by
  rw [dependsOn_eq, dependsOn_eq, refNames_removeSelfT, dedupFirstSeen_filter]

theorem visit_visited (tables : List Table) (fuel : Nat) (n : List Char)
    (st : SortState) (h : n ∈ st.visited) : visit tables fuel n st = st := by
  cases fuel with
  | zero => rfl
  | succ f => exact visit_succ_mem tables f n st h

theorem visit_removeSelfFK (tables : List Table) :
    ∀ fuel n st,
      visit (removeSelfFK tables) fuel n ⟨st.visited, st.order.map removeSelfT⟩ =
        ⟨(visit tables fuel n st).visited,
          (visit tables fuel n st).order.map removeSelfT⟩ := by
  intro fuel
  induction fuel with
  | zero => intro n st; rfl
  | succ f ih =>
    intro n st
    by_cases hv : n ∈ st.visited
    · rw [visit_succ_mem tables f n st hv,
        visit_succ_mem (removeSelfFK tables) f n
          ⟨st.visited, st.order.map removeSelfT⟩ hv]
    · cases hlook : lookupTable tables n with
      | none =>
        have hlookB : lookupTable (removeSelfFK tables) n = none := by
          rw [lookup_removeSelfFK, hlook]
          rfl
        rw [visit_succ_none tables f n st hv hlook,
          visit_succ_none (removeSelfFK tables) f n
            ⟨st.visited, st.order.map removeSelfT⟩ hv hlookB]
      | some t =>
        have hlookB : lookupTable (removeSelfFK tables) n = some (removeSelfT t) := by
          rw [lookup_removeSelfFK, hlook]
          rfl
        obtain ⟨htmem, htname⟩ := lookupTable_some hlook
        rw [visit_succ_some tables f n st t hv hlook,
          visit_succ_some (removeSelfFK tables) f n
            ⟨st.visited, st.order.map removeSelfT⟩ (removeSelfT t) hv hlookB]
        have hdeps : (removeSelfT t).dependsOn =
            t.dependsOn.filter (fun d => decide (d ≠ n)) := by
          rw [dependsOn_removeSelfT, htname]
        have hfold : ∀ (ds : List (List Char)) (s : SortState), n ∈ s.visited →
            (ds.filter (fun d => decide (d ≠ n))).foldl
                (fun s d => visit (removeSelfFK tables) f d s)
                ⟨s.visited, s.order.map removeSelfT⟩ =
              ⟨(ds.foldl (fun s d => visit tables f d s) s).visited,
                (ds.foldl (fun s d => visit tables f d s) s).order.map removeSelfT⟩ := by
          intro ds
          induction ds with
          | nil => intro s _; rfl
          | cons d ds ihds =>
            intro s hns
            simp only [List.filter_cons, List.foldl_cons]
            by_cases hd : d = n
            · rw [if_neg (by simp [hd])]
              rw [visit_visited tables f d s (hd ▸ hns)]
              exact ihds s hns
            · rw [if_pos (by simp [hd])]
              simp only [List.foldl_cons]
              rw [ih d s]
              exact ihds (visit tables f d s)
                ((visit_grow tables f d s).1 n hns)
        have hmain := hfold t.dependsOn ⟨n :: st.visited, st.order⟩
          (List.mem_cons_self _ _)
        rw [hdeps]
        simp only at hmain
        rw [hmain]
        simp [List.map_append]

theorem sortFold_removeSelfFK (tables : List Table) (fuel : Nat) :
    ∀ (ts : List Table) (st : SortState),
      (ts.map removeSelfT).foldl
          (fun s x => visit (removeSelfFK tables) fuel x.name s)
          ⟨st.visited, st.order.map removeSelfT⟩ =
        ⟨(ts.foldl (fun s x => visit tables fuel x.name s) st).visited,
          (ts.foldl (fun s x => visit tables fuel x.name s) st).order.map removeSelfT⟩ := by
  intro ts
  induction ts with
  | nil => intro st; rfl
  | cons u ts ih =>
    intro st
    simp only [List.map_cons, List.foldl_cons, name_removeSelfT]
    rw [visit_removeSelfFK tables fuel u.name st]
    exact ih (visit tables fuel u.name st)

theorem topologicalSort_removeSelfFK (tables : List Table) :
    topologicalSort (removeSelfFK tables) = (topologicalSort tables).map removeSelfT := by
  rw [topologicalSort, topologicalSort, topologicalSortFuel, topologicalSortFuel]
  have hlen : (removeSelfFK tables).length = tables.length := List.length_map _ _
  rw [hlen]
  exact congrArg SortState.order
    (sortFold_removeSelfFK tables (tables.length + 1) tables ⟨[], []⟩)

/-! ## Fuel stability of the sort -/

theorem visit_fuel_stable (tables : List Table) :
    ∀ f1 f2 n st, unvisitedCount tables st < f1 → unvisitedCount tables st < f2 →
      visit tables f1 n st = visit tables f2 n st := by
  intro f1
  induction f1 with
  | zero => intro f2 n st h1; omega
  | succ f ihf =>
    intro f2 n st h1 h2
    cases f2 with
    | zero => omega
    | succ g =>
      by_cases hv : n ∈ st.visited
      · rw [visit_succ_mem tables f n st hv, visit_succ_mem tables g n st hv]
      · cases hlook : lookupTable tables n with
        | none =>
          rw [visit_succ_none tables f n st hv hlook,
            visit_succ_none tables g n st hv hlook]
        | some t =>
          have hnames : n ∈ names tables := name_mem_of_lookup_some hlook
          have hlt := unvisitedCount_cons_lt hnames hv st.order
          rw [visit_succ_some tables f n st t hv hlook,
            visit_succ_some tables g n st t hv hlook]
          have hfold : ∀ (ds : List (List Char)) (s : SortState),
              unvisitedCount tables s < f → unvisitedCount tables s < g →
              ds.foldl (fun s d => visit tables f d s) s =
                ds.foldl (fun s d => visit tables g d s) s := by
            intro ds
            induction ds with
            | nil => intro s _ _; rfl
            | cons d ds ihds =>
              intro s hf hg
              simp only [List.foldl_cons]
              rw [ihf g d s hf hg]
              have hmono : unvisitedCount tables (visit tables g d s) ≤
                  unvisitedCount tables s :=
                unvisitedCount_mono (visit_grow tables g d s).1
              exact ihds (visit tables g d s) (by omega) (by omega)
          rw [hfold t.dependsOn ⟨n :: st.visited, st.order⟩ (by omega) (by omega)]

theorem topologicalSortFuel_stable (tables : List Table) (k : Nat) :
    topologicalSortFuel (tables.length + 1 + k) tables = topologicalSort tables := by
  rw [topologicalSort, topologicalSortFuel, topologicalSortFuel]
  have hfold : ∀ (ts : List Table) (st : SortState),
      ts.foldl (fun s x => visit tables (tables.length + 1 + k) x.name s) st =
        ts.foldl (fun s x => visit tables (tables.length + 1) x.name s) st := by
    intro ts
    induction ts with
    | nil => intro st; rfl
    | cons u ts ih =>
      intro st
      simp only [List.foldl_cons]
      have hle := unvisitedCount_le tables st
      rw [visit_fuel_stable tables (tables.length + 1 + k) (tables.length + 1)
        u.name st (by omega) (by omega)]
      exact ih (visit tables (tables.length + 1) u.name st)
  rw [hfold tables ⟨[], []⟩]

/-! ## C8: the normalizer is idempotent -/

theorem head_dropWhile_goIsSpace :
    ∀ (s : List Char) (x : Char), (s.dropWhile goIsSpace).head? = some x →
      goIsSpace x = false := by
  intro s
  induction s with
  | nil => intro x h; cases h
  | cons a l ih =>
    intro x h
    rw [List.dropWhile_cons] at h
    by_cases ha : goIsSpace a = true
    · rw [if_pos ha] at h
      exact ih x h
    · rw [if_neg ha] at h
      simp only [List.head?_cons, Option.some.injEq] at h
      rw [← h]
      exact Bool.eq_false_iff.mpr ha

theorem dropWhile_eq_self_goIsSpace (s : List Char)
    (h : ∀ x, s.head? = some x → goIsSpace x = false) :
    s.dropWhile goIsSpace = s := by
  cases s with
  | nil => rfl
  | cons a l =>
    have ha : goIsSpace a = false := h a rfl
    rw [List.dropWhile_cons, ha]
    simp

theorem trimLeft_head (s : List Char) (x : Char)
    (h : (trimLeft s).head? = some x) : goIsSpace x = false :=
  head_dropWhile_goIsSpace s x h

theorem trimRight_getLast (s : List Char) (x : Char)
    (h : (trimRight s).getLast? = some x) : goIsSpace x = false := by
  rw [trimRight, List.getLast?_reverse] at h
  exact head_dropWhile_goIsSpace s.reverse x h

theorem prefixOfTrimRight (s : List Char) : trimRight s <+: s := by
  rw [trimRight]
  have h1 : s.reverse.dropWhile goIsSpace <:+ s.reverse := List.dropWhile_suffix goIsSpace
  have h2 : (s.reverse.dropWhile goIsSpace).reverse <+: s.reverse.reverse :=
    List.reverse_prefix.mpr h1
  rwa [List.reverse_reverse] at h2

theorem trimRight_eq_self (s : List Char)
    (h : ∀ x, s.getLast? = some x → goIsSpace x = false) : trimRight s = s := by
  rw [trimRight]
  have h2 : ∀ x, s.reverse.head? = some x → goIsSpace x = false := by
    intro x hx
    rw [List.head?_reverse] at hx
    exact h x hx
  rw [dropWhile_eq_self_goIsSpace s.reverse h2, List.reverse_reverse]

theorem trimSpace_head (s : List Char) (x : Char)
    (h : (trimSpace s).head? = some x) : goIsSpace x = false := by
  rw [trimSpace] at h
  obtain ⟨t, ht⟩ := prefixOfTrimRight (trimLeft s)
  have hne : trimRight (trimLeft s) ≠ [] := by
    intro h0
    rw [h0] at h
    cases h
  have h3 : (trimLeft s).head? = some x := by
    rw [← ht, List.head?_append_of_ne_nil _ hne]
    exact h
  exact trimLeft_head s x h3

theorem trimSpace_getLast (s : List Char) (x : Char)
    (h : (trimSpace s).getLast? = some x) : goIsSpace x = false :=
  trimRight_getLast (trimLeft s) x h

theorem trimSpace_subset (s : List Char) : trimSpace s ⊆ s := by
  intro c hc
  rw [trimSpace] at hc
  have h1 := (prefixOfTrimRight (trimLeft s)).subset hc
  exact (List.dropWhile_suffix goIsSpace).subset h1

theorem dropCR_subset (l : List Char) : dropCR l ⊆ l := by
  rw [dropCR]
  by_cases h : l.getLast? = some '\r'
  · rw [if_pos h]
    exact (List.dropLast_sublist l).subset
  · rw [if_neg h]
    exact fun c hc => hc

theorem splitLines_no_newline :
    ∀ (s : List Char) (l : List Char), l ∈ splitLines s → '\n' ∉ l := by
  intro s
  induction s with
  | nil => intro l hl; cases hl
  | cons c rest ih =>
    intro l hl
    rw [splitLines] at hl
    by_cases hc : c = '\n'
    · rw [if_pos hc] at hl
      rcases List.mem_cons.mp hl with h | h
      · subst h
        exact List.not_mem_nil _
      · exact ih l h
    · rw [if_neg hc] at hl
      cases hsp : splitLines rest with
      | nil =>
        rw [hsp] at hl
        have hlc : l = [c] := by simpa using hl
        subst hlc
        intro hmem
        have : '\n' = c := by simpa using hmem
        exact hc this.symm
      | cons x ls =>
        rw [hsp] at hl
        rcases List.mem_cons.mp hl with h | h
        · subst h
          intro hmem
          rcases List.mem_cons.mp hmem with h2 | h2
          · exact hc h2.symm
          · exact ih x (by rw [hsp]; exact List.mem_cons_self _ _) h2
        · exact ih l (by rw [hsp]; exact List.mem_cons_of_mem _ h)

theorem splitLines_singleton :
    ∀ s : List Char, s ≠ [] → '\n' ∉ s → splitLines s = [s] := by
  intro s
  induction s with
  | nil => intro h _; exact absurd rfl h
  | cons c rest ih =>
    intro _ hnl
    have hc : ¬ c = '\n' := fun h => hnl (by rw [h]; exact List.mem_cons_self _ _)
    rw [splitLines, if_neg hc]
    by_cases hr : rest = []
    · subst hr
      rfl
    · have hih : splitLines rest = [rest] :=
        ih hr (fun h => hnl (List.mem_cons_of_mem _ h))
      rw [hih]

theorem startsWith_dashdash_append (w z : List Char)
    (h : startsWith w (str "--") = false) :
    startsWith (w ++ ' ' :: z) (str "--") = false := by
  have hdd : str "--" = ['-', '-'] := rfl
  rw [hdd] at h ⊢
  rcases w with _ | ⟨a, w1⟩
  · rfl
  · rcases w1 with _ | ⟨b, w'⟩
    · simp [startsWith, List.cons_append]
    · simp only [startsWith, List.cons_append] at h ⊢
      simpa using h

theorem normStep_shape (b line : List Char) (hb : NormShape b)
    (hline : '\n' ∉ line) :
    NormShape (if trimSpace (dropCR line) = [] ||
          startsWith (trimSpace (dropCR line)) (str "--") then b
      else b ++ ' ' :: trimSpace (dropCR line)) := by
  by_cases hskip : (decide (trimSpace (dropCR line) = []) ||
      startsWith (trimSpace (dropCR line)) (str "--")) = true
  · rw [if_pos hskip]
    exact hb
  · rw [if_neg hskip]
    have hparts := Bool.or_eq_false_iff.mp (Bool.eq_false_iff.mpr hskip)
    have hne : trimSpace (dropCR line) ≠ [] := by
      have := hparts.1
      simpa using this
    have hdd : startsWith (trimSpace (dropCR line)) (str "--") = false := hparts.2
    cases hl : trimSpace (dropCR line) with
    | nil => exact absurd hl hne
    | cons c0 l' =>
      have hc0 : goIsSpace c0 = false :=
        trimSpace_head (dropCR line) c0 (by rw [hl]; rfl)
      have hlast : ∀ x, (c0 :: l').getLast? = some x → goIsSpace x = false := by
        intro x hx
        exact trimSpace_getLast (dropCR line) x (by rw [hl]; exact hx)
      have hnlL : '\n' ∉ (c0 :: l') := by
        rw [← hl]
        intro hmem
        exact hline (dropCR_subset line (trimSpace_subset (dropCR line) hmem))
      rw [hl] at hdd
      rcases hb with hb0 | ⟨c, v, hbv, hcns, hvlast, hvnl, hvdd⟩
      · subst hb0
        refine Or.inr ⟨c0, l', by simp, hc0, hlast, ?_, hdd⟩
        intro hmem
        rcases List.mem_cons.mp hmem with h2 | h2
        · exact absurd h2 (by decide)
        · exact hnlL h2
      · subst hbv
        have hshape : (' ' :: c :: v) ++ ' ' :: c0 :: l' =
            ' ' :: c :: (v ++ ' ' :: c0 :: l') := by simp
        rw [hshape]
        refine Or.inr ⟨c, v ++ ' ' :: c0 :: l', rfl, hcns, ?_, ?_, ?_⟩
        · intro x hx
          have hsplit : (c :: (v ++ ' ' :: c0 :: l')).getLast? = (c0 :: l').getLast? := by
            rw [show c :: (v ++ ' ' :: c0 :: l') = (c :: v) ++ (' ' :: c0 :: l') by simp,
              List.getLast?_append_of_ne_nil _ (by simp)]
            exact List.getLast?_cons_cons
          rw [hsplit] at hx
          exact hlast x hx
        · intro hmem
          rcases List.mem_cons.mp hmem with h2 | h2
          · exact absurd h2 (by decide)
          · rcases List.mem_cons.mp h2 with h3 | h3
            · exact hvnl (by rw [h3]; simp)
            · rcases List.mem_append.mp h3 with h4 | h4
              · exact hvnl (by simp [h4])
              · rcases List.mem_cons.mp h4 with h5 | h5
                · exact absurd h5 (by decide)
                · exact hnlL h5
        · rw [show c :: (v ++ ' ' :: c0 :: l') = (c :: v) ++ ' ' :: (c0 :: l') by simp]
          exact startsWith_dashdash_append (c :: v) (c0 :: l') hvdd

theorem normFold_shape :
    ∀ (lines : List (List Char)) (b : List Char), NormShape b →
      (∀ l ∈ lines, '\n' ∉ l) →
      NormShape (lines.foldl (fun b line =>
        let l := trimSpace (dropCR line)
        if l = [] || startsWith l (str "--") then b else b ++ ' ' :: l) b) := by
  intro lines
  induction lines with
  | nil => intro b hb _; exact hb
  | cons line lines ih =>
    intro b hb hnl
    simp only [List.foldl_cons]
    exact ih _ (normStep_shape b line hb (hnl line (List.mem_cons_self _ _)))
      (fun l hl => hnl l (List.mem_cons_of_mem _ hl))

theorem normalizeSQL_shape (s : List Char) : NormShape (normalizeSQL s) :=
  normFold_shape (splitLines s) [] (Or.inl rfl) (splitLines_no_newline s)

/-- C8: the statement normalizer is idempotent — for every input,
normalizing twice yields the same text as normalizing once. -/
theorem C8_normalizeSQL_idempotent (s : List Char) :
    normalizeSQL (normalizeSQL s) = normalizeSQL s := by
  rcases normalizeSQL_shape s with h0 | ⟨c, v, hu, hc, hlast, hnl, hdd⟩
  · rw [h0]
    rfl
  · rw [hu]
    have hne : (' ' :: c :: v) ≠ [] := by simp
    have hnl2 : '\n' ∉ (' ' :: c :: v) := hu ▸ hnl
    rw [normalizeSQL, splitLines_singleton _ hne hnl2]
    simp only [List.foldl_cons, List.foldl_nil]
    have hdcr : dropCR (' ' :: c :: v) = ' ' :: c :: v := by
      rw [dropCR, if_neg]
      rw [List.getLast?_cons_cons]
      intro hcontra
      have := hlast '\r' hcontra
      exact absurd this (by decide)
    rw [hdcr]
    have htl : trimLeft (' ' :: c :: v) = c :: v := by
      rw [trimLeft, List.dropWhile_cons, if_pos (by decide)]
      apply dropWhile_eq_self_goIsSpace
      intro x hx
      have hxc : x = c := by
        simp only [List.head?_cons, Option.some.injEq] at hx
        exact hx.symm
      rw [hxc]
      exact hc
    have hts : trimSpace (' ' :: c :: v) = c :: v := by
      rw [trimSpace, htl]
      exact trimRight_eq_self (c :: v) hlast
    rw [hts, if_neg]
    · simp
    · simp [hdd]

/-- C6: self-referencing foreign keys do not affect a table's position and
do not cause non-termination: the sort on any table list yields the same
name sequence as on the identical schema with every self-referencing
foreign key removed, and (termination, expressed through the fuel model)
any fuel at or above the bound used by `topologicalSort` produces the same
result. -/
theorem C6_selfref_irrelevant (tables : List Table) :
    (topologicalSort (removeSelfFK tables)).map Table.name =
        (topologicalSort tables).map Table.name ∧
      ∀ k, topologicalSortFuel (tables.length + 1 + k) tables =
        topologicalSort tables := by
  constructor
  · rw [topologicalSort_removeSelfFK, List.map_map]
    rfl
  · exact topologicalSortFuel_stable tables

end DbSeed
